import Mathlib

/-!
Verification of the adaptive entropy encoder in `src/src/encode.c`
(libaec, CCSDS 121.0-B-2).  The definitions below are a shallow embedding
of the C functions: machine integers become `Nat` with explicit `% 2^w`
where overflow can occur, byte stores become `% 256`, and the output
cursor `cds`/`bits` of the bit emitter becomes an explicit record.
-/

set_option maxHeartbeats 1000000

/-- Status codes of the library API.  Modelled from the spec: the numeric
constants live in `libaec.h`, which is not under `src/`; the spec (§7) names
the statuses OK, ConfigurationError, MemoryError and StreamError. -/
inductive AecStatus where
  | ok
  | confError
  | memError
  | streamError
deriving DecidableEq, Repr

/-- State of the bit emitter: `out` are the finished output bytes before the
cursor, `cur` is the byte at `state->cds`, and `bits` is `state->bits`, the
number of still-free low bits of that byte. -/
structure EmitState where
  out : List Nat
  cur : Nat
  bits : Nat
deriving DecidableEq, Repr

/-- The `while (bits > 8)` loop inside `emit` (encode.c:78-81): while more
than 8 bits remain, emit the byte `data >> bits` after dropping 8 bits.
Returns the emitted bytes in order together with the final bit count. -/
def emitLoop (data : Nat) (b : Nat) : List Nat × Nat :=
  if 8 < b then
    let b' := b - 8
    let r := emitLoop data b'
    ((data / 2 ^ b') % 256 :: r.1, r.2)
  else
    ([], b)
termination_by b

/-- `emit` (encode.c:64-86): append the low `bitsN` bits of `data` to the
stream, most significant bit first.  The `uint8_t` stores are modelled with
`% 256`; the intermediate `uint32_t` shift `data << state->bits` feeds a
byte store, and `2^32` is a multiple of `256`, so `% 256` is faithful. -/
def emit (st : EmitState) (data : Nat) (bitsN : Nat) : EmitState :=
  if bitsN ≤ st.bits then
    { st with
      bits := st.bits - bitsN
      cur := (st.cur + data * 2 ^ (st.bits - bitsN)) % 256 }
  else
    let b1 := bitsN - st.bits
    let byte0 := (st.cur + data / 2 ^ b1) % 256
    let r := emitLoop data b1
    { out := st.out ++ byte0 :: r.1
      cur := (data * 2 ^ (8 - r.2)) % 256
      bits := 8 - r.2 }

/-- `emitfs` (encode.c:88-107): emit `fs` zero bits followed by one 1 bit. -/
def emitfs (st : EmitState) (fs : Nat) : EmitState :=
  if fs < st.bits then
    { st with
      bits := st.bits - (fs + 1)
      cur := (st.cur + 2 ^ (st.bits - (fs + 1))) % 256 }
  else
    emitfs { out := st.out ++ [st.cur], cur := 0, bits := 8 } (fs - st.bits)
termination_by fs + (8 - st.bits) + 1
decreasing_by
  simp only [not_lt] at *
  omega

/-- Big-endian value of a byte list. -/
def bytesVal (l : List Nat) : Nat := l.foldl (fun a b => a * 256 + b) 0

/-- Number of bits emitted so far: all bits of the finished bytes plus the
high `8 - bits` bits of the byte at the cursor. -/
def streamLen (st : EmitState) : Nat := 8 * st.out.length + (8 - st.bits)

/-- The emitted bit string, read most-significant-bit first, as a natural
number. -/
def streamVal (st : EmitState) : Nat :=
  bytesVal st.out * 2 ^ (8 - st.bits) + st.cur / 2 ^ st.bits

/-- Emitter cursor invariant: at most 8 free bits, the cursor byte is a
byte, and its low `bits` bits are zero. -/
def goodEmit (st : EmitState) : Prop :=
  st.bits ≤ 8 ∧ st.cur < 256 ∧ st.cur % 2 ^ st.bits = 0

instance (st : EmitState) : Decidable (goodEmit st) := by
  unfold goodEmit
  infer_instance

/-- One step of `preprocess_unsigned` (encode.c:256-269): map the pair of
consecutive samples `prev = x[i]`, `cur = x[i+1]` to the residual
`d[i+1]`.  All arithmetic is `uint32_t`; subtractions that cannot wrap in
their branch are left plain, the rest carry an explicit `% 2^32`. -/
def preprocess_step (xmax prev cur : Nat) : Nat :=
  if prev ≤ cur then
    if cur - prev ≤ prev then 2 * (cur - prev) % 4294967296 else cur
  else
    if prev - cur ≤ (xmax + 4294967296 - prev) % 4294967296 then
      (2 * (prev - cur) - 1) % 4294967296
    else (xmax + 4294967296 - cur) % 4294967296

/-- The residual loop of `preprocess_unsigned`, threading the previous
sample. -/
def preprocess_unsigned_go (xmax : Nat) : Nat → List Nat → List Nat
  | _, [] => []
  | prev, cur :: rest => preprocess_step xmax prev cur :: preprocess_unsigned_go xmax cur rest

/-- Result of preprocessing: the residual buffer `data_pp` and the fields
`state->ref` and `state->uncomp_len` set at encode.c:271-272. -/
structure PreprocessResult where
  d : List Nat
  ref : Nat
  uncomp_len : Nat
deriving DecidableEq, Repr

/-- `preprocess_unsigned` (encode.c:238-273): `d[0] = x[0]`, each later
residual from `preprocess_step`, then `ref = 1` and
`uncomp_len = (block_size - 1) * bits_per_sample`. -/
def preprocess_unsigned (block_size bits_per_sample xmax : Nat) (x : List Nat) :
    PreprocessResult :=
  { d := match x with
      | [] => []
      | x0 :: rest => x0 :: preprocess_unsigned_go xmax x0 rest
    ref := 1
    uncomp_len := (block_size - 1) * bits_per_sample }

/-- The residual mapping as worded in the spec and claim C6: plain
(unbounded) arithmetic, no machine wrap-around.  This is the second,
spec-side definition, to be compared with `preprocess_step` from the
source. -/
def claimPreStep (xmax prev cur : Nat) : Nat :=
  if prev ≤ cur then
    if cur - prev ≤ prev then 2 * (cur - prev) else cur
  else
    if prev - cur ≤ xmax - prev then 2 * (prev - cur) - 1 else xmax - cur

/-- The loop of `assess_se_option` (encode.c:431-441): two samples per
iteration; `len` is a `uint32_t` accumulator (`% 2^32` on update); a pair
sum above `uncomp_len` aborts with `UINT32_MAX`. -/
def se_loop (uncomp_len : Nat) : List Nat → Nat → Nat
  | a :: b :: rest, len =>
    if uncomp_len < a + b then 4294967295
    else se_loop uncomp_len rest ((len + ((a + b) * (a + b + 1) / 2 + b + 1)) % 4294967296)
  | _, len => len

/-- `assess_se_option` (encode.c:416-443): length of the CDS under the
Second Extension option, starting from `len = 1`. -/
def assess_se_option (uncomp_len : Nat) (block : List Nat) : Nat :=
  se_loop uncomp_len block 1

/-- Consecutive sample pairs `(block[i], block[i+1])` for even `i`. -/
def pairsOf : List Nat → List (Nat × Nat)
  | a :: b :: rest => (a, b) :: pairsOf rest
  | _ => []

/-- The total SE body length as stated in the claim: per pair `(a, b)` with
`d = a + b`, the term `d·(d+1)/2 + b + 1`. -/
def seLenSpec (block : List Nat) : Nat :=
  ((pairsOf block).map (fun p => (p.1 + p.2) * (p.1 + p.2 + 1) / 2 + p.2 + 1)).sum

/-- `block_fs` (encode.c:314-331): sum of `block[i] >> k` over the whole
block, minus the reference sample's contribution when `ref` is set. -/
def block_fs (block : List Nat) (ref : Bool) (k : Nat) : Nat :=
  (block.map (fun b => b / 2 ^ k)).sum - (if ref then block.headD 0 / 2 ^ k else 0)

/-- Splitting cost evaluated by `assess_splitting_option` for a given `k`
(encode.c:378-379): `len = fs_len + this_bs * (k + 1)`. -/
def splitCost (block : List Nat) (ref : Bool) (this_bs k : Nat) : Nat :=
  block_fs block ref k + this_bs * (k + 1)

/-- Result of the k-search: the final `len_min` and `k_min`, together with
the list of `k` values the loop evaluated, in evaluation order (a ghost
field used to state the optimality claim). -/
structure SplitResult where
  len_min : Nat
  k_min : Nat
  evaluated : List Nat
deriving DecidableEq, Repr

/-- The `for (;;)` k-search loop of `assess_splitting_option`
(encode.c:377-410), one constructor argument per mutable C variable.
`k0` plays the role of the unchanged `state->k` read at the reversal. -/
def split_loop (block : List Nat) (ref : Bool) (this_bs kmax k0 : Nat)
    (k : Nat) (dir no_turn : Bool) (len_min k_min : Nat) : SplitResult :=
  let fs_len := block_fs block ref k
  let len := fs_len + this_bs * (k + 1)
  if len < len_min then
    let nt := if len_min < 18446744073709551615 then true else no_turn
    if dir then
      if fs_len < this_bs ∨ kmax ≤ k then
        if nt then ⟨len, k, [k]⟩
        else
          let r := split_loop block ref this_bs kmax k0 (k0 - 1) false true len k
          ⟨r.len_min, r.k_min, k :: r.evaluated⟩
      else
        let r := split_loop block ref this_bs kmax k0 (k + 1) true nt len k
        ⟨r.len_min, r.k_min, k :: r.evaluated⟩
    else
      if this_bs ≤ fs_len ∨ k = 0 then ⟨len, k, [k]⟩
      else
        let r := split_loop block ref this_bs kmax k0 (k - 1) false nt len k
        ⟨r.len_min, r.k_min, k :: r.evaluated⟩
  else
    if no_turn then ⟨len_min, k_min, [k]⟩
    else
      let r := split_loop block ref this_bs kmax k0 (k0 - 1) false true len_min k_min
      ⟨r.len_min, r.k_min, k :: r.evaluated⟩
termination_by
  if dir then (kmax + 1 - min k kmax) + k0 + 2
  else k + 1 + (if no_turn then 0 else k0 + 1)
decreasing_by
  all_goals cases dir <;> cases no_turn <;> split_ifs <;> try simp_all
  all_goals omega

/-- `assess_splitting_option` (encode.c:333-414) up to its return
statement: run the k-search from the previous block's `state->k = k0`,
with `this_bs = block_size - ref`, `len_min = UINT64_MAX`,
`no_turn = (k == 0)`, `dir = 1`. -/
def assess_splitting_run (block : List Nat) (ref : Bool) (kmax k0 : Nat) : SplitResult :=
  split_loop block ref (block.length - (if ref then 1 else 0)) kmax k0
    k0 true (k0 == 0) 18446744073709551615 k0

/-- The `uint32_t` value returned by `assess_splitting_option`: the 64-bit
`len_min` truncated by the implicit conversion at `return len_min`. -/
def assess_splitting_option (block : List Nat) (ref : Bool) (kmax k0 : Nat) : Nat :=
  (assess_splitting_run block ref kmax k0).len_min % 4294967296

/-- Minimum of a list of candidate lengths, seeded with `UINT64_MAX` like
the C variable `len_min`. -/
def minFold (l : List Nat) : Nat := l.foldr min 18446744073709551615

/-- The non-zero code options a block can be encoded with. -/
inductive CodeOption where
  | splitting
  | se
  | uncomp
deriving DecidableEq, Repr

/-- `m_select_code_option` (encode.c:593-620): choose the code option from
`split_len` (splitting assessment when `id_len > 1`, else `UINT32_MAX`),
`se_len` and `uncomp_len`. -/
def m_select_code_option (block : List Nat) (ref : Bool) (kmax k0 id_len uncomp_len : Nat) :
    CodeOption :=
  let split_len := if 1 < id_len then assess_splitting_option block ref kmax k0
    else 4294967295
  let se_len := assess_se_option uncomp_len block
  if split_len < uncomp_len then
    if split_len < se_len then CodeOption.splitting else CodeOption.se
  else
    if uncomp_len ≤ se_len then CodeOption.uncomp else CodeOption.se

/-- Modelled from the spec: `ROS` (Remainder-of-Segment) is defined in
`encode.h`, which is not under `src/`.  The spec's glossary describes it as
a *sentinel* for a maximal zero-block run, distinct from real run counts
(which stay in `[1, rsi] ⊆ [1, 4096]`); it is modelled as `UINT32_MAX`. -/
def ROS : Nat := 4294967295

/-- Successor states reachable from `m_check_zero_block`. -/
inductive Mode where
  | encode_zero
  | select_code_option
  | get_block
deriving DecidableEq, Repr

/-- The zero-run bookkeeping fields of `struct internal_state` used by
`m_check_zero_block`. -/
structure ZeroState where
  zero_blocks : Nat
  zero_ref : Bool
  zero_ref_sample : Nat
  block_nonzero : Bool
deriving DecidableEq, Repr

/-- `m_check_zero_block` (encode.c:622-667): scan `block[ref..block_size)`
for a non-zero sample; aggregate zero runs and decide the next state.
`zero_blocks` is always incremented for a zero block; the reference
snapshot is taken only when the incremented count is 1. -/
def m_check_zero_block (rsi blocks_avail : Nat) (ref : Bool) (block : List Nat)
    (st : ZeroState) : ZeroState × Mode :=
  if (block.drop (if ref then 1 else 0)).any (fun b => b != 0) then
    if st.zero_blocks ≠ 0 then ({ st with block_nonzero := true }, Mode.encode_zero)
    else (st, Mode.select_code_option)
  else
    let st1 : ZeroState :=
      { zero_blocks := st.zero_blocks + 1
        zero_ref := if st.zero_blocks + 1 = 1 then ref else st.zero_ref
        zero_ref_sample :=
          if st.zero_blocks + 1 = 1 then block.headD 0 else st.zero_ref_sample
        block_nonzero := st.block_nonzero }
    if blocks_avail = 0 ∨ (rsi - blocks_avail) % 64 = 0 then
      (if 4 < st1.zero_blocks then { st1 with zero_blocks := ROS } else st1,
        Mode.encode_zero)
    else (st1, Mode.get_block)

/-- `m_encode_zero` (encode.c:573-591): emit the zero-run CDS — identifier
`0` in `id_len + 1` bits, the saved reference sample when `zero_ref` is
set, then the fundamental sequence selected by `zero_blocks` — and reset
`zero_blocks` to 0 (returned as the second component). -/
def m_encode_zero (st : EmitState) (id_len bits_per_sample : Nat) (zero_ref : Bool)
    (zero_ref_sample zero_blocks : Nat) : EmitState × Nat :=
  let s1 := emit st 0 (id_len + 1)
  let s2 := if zero_ref then emit s1 zero_ref_sample bits_per_sample else s1
  let s3 :=
    if zero_blocks = ROS then emitfs s2 4
    else if 5 ≤ zero_blocks then emitfs s2 zero_blocks
    else emitfs s2 (zero_blocks - 1)
  (s3, 0)

/-- Encoder option flags.  Modelled from the spec: the flag constants
(AEC_DATA_SIGNED, AEC_DATA_3BYTE, AEC_DATA_MSB, AEC_RESTRICTED,
AEC_DATA_PREPROCESS) live in libaec.h, which is not under src/; encode.c
only tests each bit individually, so a record of booleans is faithful. -/
structure AecFlags where
  data_signed : Bool
  data_3byte : Bool
  data_msb : Bool
  restricted : Bool
  data_preprocess : Bool

/-- `aec_encode_init` (encode.c:779-903), configuration-validation part.
Returns the status together with the selected `id_len` (0 on error).
Allocations are modelled as succeeding: on real hardware each `malloc`
may instead yield AEC_MEM_ERROR, which is outside the configuration
question this model addresses. -/
def aec_encode_init (bits_per_sample block_size rsi : Nat) (flags : AecFlags) :
    AecStatus × Nat :=
  if 32 < bits_per_sample ∨ bits_per_sample = 0 then (.confError, 0)
  else if block_size ≠ 8 ∧ block_size ≠ 16 ∧ block_size ≠ 32 ∧ block_size ≠ 64 then
    (.confError, 0)
  else if 4096 < rsi then (.confError, 0)
  else if 16 < bits_per_sample then (.ok, 5)
  else if 8 < bits_per_sample then (.ok, 4)
  else if flags.restricted then
    if bits_per_sample ≤ 4 then
      if bits_per_sample ≤ 2 then (.ok, 1) else (.ok, 2)
    else (.confError, 0)
  else (.ok, 3)

/-- The claim's notion of an invalid configuration, written from the spec
text: `bits_per_sample` outside [1,32], `block_size` outside {8,16,32,64},
`rsi` outside [1,4096], or RESTRICTED with `bits_per_sample > 4`. -/
def claimInvalid (bits_per_sample block_size rsi : Nat) (flags : AecFlags) : Prop :=
  ¬ (1 ≤ bits_per_sample ∧ bits_per_sample ≤ 32) ∨
  (block_size ≠ 8 ∧ block_size ≠ 16 ∧ block_size ≠ 32 ∧ block_size ≠ 64) ∨
  ¬ (1 ≤ rsi ∧ rsi ≤ 4096) ∨
  (flags.restricted = true ∧ 4 < bits_per_sample)

instance (b bs r : Nat) (f : AecFlags) : Decidable (claimInvalid b bs r f) := by
  unfold claimInvalid
  infer_instance

/-- Flush mode passed to the last `aec_encode` call.  Modelled from the
spec: the constants AEC_NO_FLUSH / AEC_FLUSH live in libaec.h, which is
not under src/. -/
inductive FlushMode where
  | noFlush
  | flush
deriving DecidableEq, Repr

/-- `aec_encode_end` (encode.c:935-945): status is AEC_STREAM_ERROR exactly
when a flush was requested and `state->flushed` is still 0, otherwise
AEC_OK; the second component records that `cleanup(strm)` runs on every
path (the single exit at encode.c:943-944). -/
def aec_encode_end (fl : FlushMode) (flushed : Nat) : AecStatus × Bool :=
  (if fl = .flush ∧ flushed = 0 then .streamError else .ok, true)

theorem bytesVal_cons_fold (A : Nat) (l : List Nat) :
    l.foldl (fun a b => a * 256 + b) A = A * 256 ^ l.length + bytesVal l := by
  induction l generalizing A with
  | nil => simp [bytesVal]
  | cons x xs ih =>
    simp only [List.foldl_cons, List.length_cons, bytesVal]
    rw [ih (A * 256 + x), ih (0 * 256 + x)]
    ring

theorem bytesVal_append (l1 l2 : List Nat) :
    bytesVal (l1 ++ l2) = bytesVal l1 * 256 ^ l2.length + bytesVal l2 := by
  unfold bytesVal
  rw [List.foldl_append, bytesVal_cons_fold]
  rfl

theorem bytesVal_cons (c : Nat) (l : List Nat) :
    bytesVal (c :: l) = c * 256 ^ l.length + bytesVal l := by
  show l.foldl (fun a b => a * 256 + b) (0 * 256 + c) = _
  rw [bytesVal_cons_fold]
  ring

theorem emitLoop_spec (data b : Nat) (hb : 1 ≤ b) :
    1 ≤ (emitLoop data b).2 ∧ (emitLoop data b).2 ≤ 8 ∧
    b = (emitLoop data b).2 + 8 * (emitLoop data b).1.length ∧
    bytesVal (emitLoop data b).1 =
      (data / 2 ^ (emitLoop data b).2) % 2 ^ (8 * (emitLoop data b).1.length) := by
  induction b using Nat.strong_induction_on with
  | _ b ih =>
    rw [emitLoop]
    by_cases h8 : 8 < b
    · simp only [h8, if_true]
      have hrec := ih (b - 8) (by omega) (by omega)
      rcases hrec with ⟨h1, h2, h3, h4⟩
      refine ⟨h1, h2, ?_, ?_⟩
      · simp only [List.length_cons]
        omega
      · simp only [List.length_cons]
        rw [bytesVal_cons, h4]
        have hdiv : data / 2 ^ (b - 8) =
            (data / 2 ^ (emitLoop data (b - 8)).2) / 2 ^ (8 * (emitLoop data (b - 8)).1.length) := by
          rw [Nat.div_div_eq_div_mul, ← pow_add, ← h3]
        rw [hdiv]
        have hmm := @Nat.mod_mul (2 ^ (8 * (emitLoop data (b - 8)).1.length)) (2 ^ 8)
          (data / 2 ^ (emitLoop data (b - 8)).2)
        have hpow : 2 ^ (8 * (emitLoop data (b - 8)).1.length) * 2 ^ 8 =
            2 ^ (8 * ((emitLoop data (b - 8)).1.length + 1)) := by
          rw [show 8 * ((emitLoop data (b - 8)).1.length + 1) =
            8 * (emitLoop data (b - 8)).1.length + 8 by ring, pow_add]
        rw [hpow] at hmm
        rw [hmm]
        have h256L : (256 : Nat) ^ (emitLoop data (b - 8)).1.length =
            2 ^ (8 * (emitLoop data (b - 8)).1.length) := by
          rw [show (256 : Nat) = 2 ^ 8 by norm_num, ← pow_mul]
        rw [h256L, show (256 : Nat) = 2 ^ 8 by norm_num]
        ring
    · simp only [h8, if_false]
      refine ⟨hb, by omega, by simp, ?_⟩
      simp [bytesVal, Nat.mod_one]

theorem twoPowPos (k : Nat) : 0 < 2 ^ k := pow_pos (by norm_num) k

theorem dvd_add_le {a c d : Nat} (hda : d ∣ a) (hdc : d ∣ c) (hc : a < c) :
    a + d ≤ c := by
  obtain ⟨u, hu⟩ := hda
  obtain ⟨r, hr⟩ := hdc
  subst hu hr
  have hd : 0 < d := by
    rcases Nat.eq_zero_or_pos d with h | h
    · subst h
      simp at hc
    · exact h
  have huv : u < r := by
    by_contra h
    exact absurd (Nat.mul_le_mul_left d (by omega : r ≤ u)) (by omega)
  calc d * u + d = d * (u + 1) := by ring
  _ ≤ d * r := Nat.mul_le_mul_left d (by omega)

/-- `emit` preserves the cursor invariant, leaves at most 7 free bits, and
appends exactly the `n`-bit big-endian encoding of `data` to the bit
stream. -/
theorem emit_spec (st : EmitState) (data n : Nat)
    (hg : goodEmit st) (hd : data < 2 ^ n) (hn : 1 ≤ n) :
    goodEmit (emit st data n) ∧ (emit st data n).bits ≤ 7 ∧
    streamLen (emit st data n) = streamLen st + n ∧
    streamVal (emit st data n) = streamVal st * 2 ^ n + data := by
  obtain ⟨hb8, hc256, hlow⟩ := hg
  obtain ⟨q, hq⟩ := Nat.dvd_of_mod_eq_zero hlow
  have hcurle : st.cur + 2 ^ st.bits ≤ 256 := by
    refine dvd_add_le ⟨q, hq⟩ ⟨2 ^ (8 - st.bits), ?_⟩ hc256
    rw [← pow_add, show st.bits + (8 - st.bits) = 8 by omega]
    norm_num
  rw [emit]
  by_cases hle : n ≤ st.bits
  · simp only [hle, if_true]
    have hdle : data * 2 ^ (st.bits - n) < 2 ^ st.bits := by
      calc data * 2 ^ (st.bits - n) < 2 ^ n * 2 ^ (st.bits - n) :=
        mul_lt_mul_of_pos_right hd (twoPowPos _)
      _ = 2 ^ st.bits := by rw [← pow_add, show n + (st.bits - n) = st.bits by omega]
    have hsum : st.cur + data * 2 ^ (st.bits - n) < 256 := by omega
    have hcdvd : 2 ^ (st.bits - n) ∣ st.cur + data * 2 ^ (st.bits - n) :=
      Nat.dvd_add (dvd_trans (pow_dvd_pow 2 (Nat.sub_le st.bits n)) ⟨q, hq⟩) (dvd_mul_left _ _)
    refine ⟨⟨?_, ?_, ?_⟩, ?_, ?_, ?_⟩
    · show st.bits - n ≤ 8
      omega
    · show (st.cur + data * 2 ^ (st.bits - n)) % 256 < 256
      exact Nat.mod_lt _ (by norm_num)
    · show (st.cur + data * 2 ^ (st.bits - n)) % 256 % 2 ^ (st.bits - n) = 0
      rw [Nat.mod_eq_of_lt hsum]
      exact Nat.mod_eq_zero_of_dvd hcdvd
    · show st.bits - n ≤ 7
      omega
    · show 8 * st.out.length + (8 - (st.bits - n)) = 8 * st.out.length + (8 - st.bits) + n
      omega
    · show bytesVal st.out * 2 ^ (8 - (st.bits - n)) +
          (st.cur + data * 2 ^ (st.bits - n)) % 256 / 2 ^ (st.bits - n) =
          (bytesVal st.out * 2 ^ (8 - st.bits) + st.cur / 2 ^ st.bits) * 2 ^ n + data
      rw [Nat.mod_eq_of_lt hsum]
      rw [Nat.add_mul_div_right _ _ (twoPowPos (st.bits - n))]
      rw [hq, Nat.mul_div_cancel_left q (twoPowPos st.bits)]
      rw [show (2:Nat) ^ st.bits = 2 ^ (st.bits - n) * 2 ^ n by
        rw [← pow_add, show st.bits - n + n = st.bits by omega]]
      rw [mul_assoc, Nat.mul_div_cancel_left _ (twoPowPos (st.bits - n))]
      rw [show (8:Nat) - (st.bits - n) = (8 - st.bits) + n by omega, pow_add]
      ring
  · simp only [hle, if_false]
    have hb1 : 1 ≤ n - st.bits := by omega
    obtain ⟨hr1, hr2, hr3, hr4⟩ := emitLoop_spec data (n - st.bits) hb1
    have hhi : data / 2 ^ (n - st.bits) < 2 ^ st.bits := by
      apply Nat.div_lt_of_lt_mul
      calc data < 2 ^ n := hd
      _ = 2 ^ (n - st.bits) * 2 ^ st.bits := by
        rw [← pow_add, show n - st.bits + st.bits = n by omega]
    have hbyte0 : st.cur + data / 2 ^ (n - st.bits) < 256 := by omega
    have h256split : (256 : Nat) = 2 ^ (emitLoop data (n - st.bits)).2 *
        2 ^ (8 - (emitLoop data (n - st.bits)).2) := by
      rw [← pow_add,
        show (emitLoop data (n - st.bits)).2 + (8 - (emitLoop data (n - st.bits)).2) = 8 by omega]
      norm_num
    have hcur2 : (data * 2 ^ (8 - (emitLoop data (n - st.bits)).2)) % 256 =
        (data % 2 ^ (emitLoop data (n - st.bits)).2) *
          2 ^ (8 - (emitLoop data (n - st.bits)).2) := by
      rw [h256split]
      exact Nat.mul_mod_mul_right _ _ _
    refine ⟨⟨?_, ?_, ?_⟩, ?_, ?_, ?_⟩
    · show 8 - (emitLoop data (n - st.bits)).2 ≤ 8
      omega
    · show (data * 2 ^ (8 - (emitLoop data (n - st.bits)).2)) % 256 < 256
      exact Nat.mod_lt _ (by norm_num)
    · show (data * 2 ^ (8 - (emitLoop data (n - st.bits)).2)) % 256 %
          2 ^ (8 - (emitLoop data (n - st.bits)).2) = 0
      rw [hcur2]
      exact Nat.mul_mod_left _ _
    · show 8 - (emitLoop data (n - st.bits)).2 ≤ 7
      omega
    · show 8 * (st.out ++ ((st.cur + data / 2 ^ (n - st.bits)) % 256) ::
          (emitLoop data (n - st.bits)).1).length +
          (8 - (8 - (emitLoop data (n - st.bits)).2)) =
          8 * st.out.length + (8 - st.bits) + n
      rw [List.length_append, List.length_cons]
      omega
    · show bytesVal (st.out ++ ((st.cur + data / 2 ^ (n - st.bits)) % 256) ::
          (emitLoop data (n - st.bits)).1) * 2 ^ (8 - (8 - (emitLoop data (n - st.bits)).2)) +
          (data * 2 ^ (8 - (emitLoop data (n - st.bits)).2)) % 256 /
            2 ^ (8 - (emitLoop data (n - st.bits)).2) =
          (bytesVal st.out * 2 ^ (8 - st.bits) + st.cur / 2 ^ st.bits) * 2 ^ n + data
      rw [bytesVal_append, bytesVal_cons, hr4, hcur2,
        Nat.mul_div_cancel _ (twoPowPos (8 - (emitLoop data (n - st.bits)).2)),
        Nat.mod_eq_of_lt hbyte0, List.length_cons,
        show 8 - (8 - (emitLoop data (n - st.bits)).2) = (emitLoop data (n - st.bits)).2 by omega]
      rw [hq, Nat.mul_div_cancel_left q (twoPowPos st.bits)]
      rw [pow_succ,
        show (256:Nat) ^ (emitLoop data (n - st.bits)).1.length =
          2 ^ (8 * (emitLoop data (n - st.bits)).1.length) by
            rw [show (256 : Nat) = 2 ^ 8 by norm_num, ← pow_mul]]
      have hpow_n : (2:Nat) ^ n = 2 ^ st.bits * (2 ^ (emitLoop data (n - st.bits)).2 *
          2 ^ (8 * (emitLoop data (n - st.bits)).1.length)) := by
        rw [← pow_add, ← pow_add]
        congr 1
        omega
      rw [hpow_n]
      have hdata : data = data / 2 ^ (n - st.bits) *
          (2 ^ (emitLoop data (n - st.bits)).2 * 2 ^ (8 * (emitLoop data (n - st.bits)).1.length)) +
          (2 ^ (emitLoop data (n - st.bits)).2 *
            (data / 2 ^ (emitLoop data (n - st.bits)).2 %
              2 ^ (8 * (emitLoop data (n - st.bits)).1.length)) +
            data % 2 ^ (emitLoop data (n - st.bits)).2) := by
        have t1 : (2:Nat) ^ (n - st.bits) = 2 ^ (emitLoop data (n - st.bits)).2 *
            2 ^ (8 * (emitLoop data (n - st.bits)).1.length) := by
          rw [← pow_add, ← hr3]
        have t2 := Nat.div_add_mod data (2 ^ (n - st.bits))
        have t3 : data % 2 ^ (n - st.bits) =
            data % 2 ^ (emitLoop data (n - st.bits)).2 +
            2 ^ (emitLoop data (n - st.bits)).2 *
              (data / 2 ^ (emitLoop data (n - st.bits)).2 %
                2 ^ (8 * (emitLoop data (n - st.bits)).1.length)) := by
          rw [t1]
          exact Nat.mod_mul
        calc data = 2 ^ (n - st.bits) * (data / 2 ^ (n - st.bits)) + data % 2 ^ (n - st.bits) :=
          t2.symm
        _ = _ := by rw [t3, t1]; ring
      rw [show (256:Nat) = 2 ^ (8 - st.bits) * 2 ^ st.bits by
        rw [← pow_add, show 8 - st.bits + st.bits = 8 by omega]; norm_num]
      zify at hdata ⊢
      linear_combination (-1 : ℤ) * hdata

/-- `emitfs` preserves the cursor invariant and appends `fs` zero bits
followed by a single 1 bit (a fundamental sequence) to the bit stream. -/
theorem emitfs_spec (st : EmitState) (fs : Nat) (hg : goodEmit st) :
    goodEmit (emitfs st fs) ∧ (emitfs st fs).bits ≤ 7 ∧
    streamLen (emitfs st fs) = streamLen st + (fs + 1) ∧
    streamVal (emitfs st fs) = streamVal st * 2 ^ (fs + 1) + 1 := by
  induction st, fs using emitfs.induct with
  | case1 st fs hlt =>
    obtain ⟨hb8, hc256, hlow⟩ := hg
    obtain ⟨q, hq⟩ := Nat.dvd_of_mod_eq_zero hlow
    have hcurle : st.cur + 2 ^ st.bits ≤ 256 := by
      refine dvd_add_le ⟨q, hq⟩ ⟨2 ^ (8 - st.bits), ?_⟩ hc256
      rw [← pow_add, show st.bits + (8 - st.bits) = 8 by omega]
      norm_num
    have hplt : (2:Nat) ^ (st.bits - (fs + 1)) < 2 ^ st.bits :=
      Nat.pow_lt_pow_right (by norm_num) (by omega)
    have hsum : st.cur + 2 ^ (st.bits - (fs + 1)) < 256 := by omega
    rw [emitfs, if_pos hlt]
    have hcdvd : 2 ^ (st.bits - (fs + 1)) ∣ st.cur + 2 ^ (st.bits - (fs + 1)) :=
      Nat.dvd_add (dvd_trans (pow_dvd_pow 2 (Nat.sub_le _ _)) ⟨q, hq⟩) dvd_rfl
    refine ⟨⟨?_, ?_, ?_⟩, ?_, ?_, ?_⟩
    · show st.bits - (fs + 1) ≤ 8
      omega
    · show (st.cur + 2 ^ (st.bits - (fs + 1))) % 256 < 256
      exact Nat.mod_lt _ (by norm_num)
    · show (st.cur + 2 ^ (st.bits - (fs + 1))) % 256 % 2 ^ (st.bits - (fs + 1)) = 0
      rw [Nat.mod_eq_of_lt hsum]
      exact Nat.mod_eq_zero_of_dvd hcdvd
    · show st.bits - (fs + 1) ≤ 7
      omega
    · show 8 * st.out.length + (8 - (st.bits - (fs + 1))) =
        8 * st.out.length + (8 - st.bits) + (fs + 1)
      omega
    · show bytesVal st.out * 2 ^ (8 - (st.bits - (fs + 1))) +
          (st.cur + 2 ^ (st.bits - (fs + 1))) % 256 / 2 ^ (st.bits - (fs + 1)) =
          (bytesVal st.out * 2 ^ (8 - st.bits) + st.cur / 2 ^ st.bits) * 2 ^ (fs + 1) + 1
      rw [Nat.mod_eq_of_lt hsum]
      rw [Nat.add_div_right _ (twoPowPos (st.bits - (fs + 1)))]
      rw [hq, Nat.mul_div_cancel_left q (twoPowPos st.bits)]
      rw [show (2:Nat) ^ st.bits = 2 ^ (st.bits - (fs + 1)) * 2 ^ (fs + 1) by
        rw [← pow_add, show st.bits - (fs + 1) + (fs + 1) = st.bits by omega]]
      rw [mul_assoc, Nat.mul_div_cancel_left _ (twoPowPos (st.bits - (fs + 1)))]
      rw [show (8:Nat) - (st.bits - (fs + 1)) = (8 - st.bits) + (fs + 1) by omega, pow_add]
      ring
  | case2 st fs hnlt ih =>
    obtain ⟨hb8, hc256, hlow⟩ := hg
    obtain ⟨q, hq⟩ := Nat.dvd_of_mod_eq_zero hlow
    have hg2 : goodEmit { out := st.out ++ [st.cur], cur := 0, bits := 8 } := by
      refine ⟨by norm_num, by norm_num, by norm_num⟩
    obtain ⟨g1, g2, g3, g4⟩ := ih hg2
    rw [emitfs, if_neg hnlt]
    have hlen2 : streamLen { out := st.out ++ [st.cur], cur := 0, bits := 8 : EmitState } =
        streamLen st + st.bits := by
      show 8 * (st.out ++ [st.cur]).length + (8 - 8) = 8 * st.out.length + (8 - st.bits) + st.bits
      rw [List.length_append, List.length_cons, List.length_nil]
      omega
    have hval2 : streamVal { out := st.out ++ [st.cur], cur := 0, bits := 8 : EmitState } =
        streamVal st * 2 ^ st.bits := by
      show bytesVal (st.out ++ [st.cur]) * 2 ^ (8 - 8) + 0 / 2 ^ 8 =
        (bytesVal st.out * 2 ^ (8 - st.bits) + st.cur / 2 ^ st.bits) * 2 ^ st.bits
      rw [bytesVal_append, bytesVal_cons]
      rw [hq, Nat.mul_div_cancel_left q (twoPowPos st.bits)]
      rw [show (256:Nat) = 2 ^ (8 - st.bits) * 2 ^ st.bits by
        rw [← pow_add, show 8 - st.bits + st.bits = 8 by omega]; norm_num]
      simp [bytesVal]
      ring
    refine ⟨g1, g2, ?_, ?_⟩
    · rw [g3, hlen2]
      omega
    · rw [g4, hval2]
      rw [mul_assoc, ← pow_add, show st.bits + (fs - st.bits + 1) = fs + 1 by omega]

/-- C1 (counterexample): from a state with `bits = 8` (which is in `[1,8]`),
`emit(state, 0, 8)` — a call with `0 < bits = 8 ≤ 32` — exits with
`state->bits = 0`, outside the claimed range `[1,8]`. -/
theorem C1_counterexample :
    goodEmit ⟨[], 0, 8⟩ ∧ 1 ≤ (⟨[], 0, 8⟩ : EmitState).bits ∧
    (⟨[], 0, 8⟩ : EmitState).bits ≤ 8 ∧ 0 < 8 ∧ 8 ≤ 32 ∧
    ¬ 1 ≤ (emit ⟨[], 0, 8⟩ 0 8).bits := by
  decide

/-- C1 (amended): for every `emit(state, data, bits)` with `0 < bits ≤ 32`
and `data < 2^bits`, and every `emitfs(state, fs)`, starting from a state
whose free-bit counter is in `[0,8]` with the low free bits of the cursor
byte zero, on exit the counter is again in `[0,8]` (indeed `[0,7]`; it can
be `0`, which the original claim excluded), the low `state->bits` bits of
the byte at `state->cds` are zero, and the bit stream is extended exactly
by the emitted bits (so the high `8 - state->bits` bits of the cursor byte
are final). -/
theorem C1_emit_emitfs_cursor_invariant :
    (∀ (st : EmitState) (data n : Nat), goodEmit st → data < 2 ^ n → 1 ≤ n → n ≤ 32 →
      goodEmit (emit st data n) ∧ (emit st data n).bits ≤ 8 ∧
      (emit st data n).cur % 2 ^ (emit st data n).bits = 0 ∧
      streamLen (emit st data n) = streamLen st + n ∧
      streamVal (emit st data n) = streamVal st * 2 ^ n + data) ∧
    (∀ (st : EmitState) (fs : Nat), goodEmit st →
      goodEmit (emitfs st fs) ∧ (emitfs st fs).bits ≤ 8 ∧
      (emitfs st fs).cur % 2 ^ (emitfs st fs).bits = 0 ∧
      streamLen (emitfs st fs) = streamLen st + (fs + 1) ∧
      streamVal (emitfs st fs) = streamVal st * 2 ^ (fs + 1) + 1) := by
  constructor
  · intro st data n hg hd hn _
    obtain ⟨g1, g2, g3, g4⟩ := emit_spec st data n hg hd hn
    exact ⟨g1, by omega, g1.2.2, g3, g4⟩
  · intro st fs hg
    obtain ⟨g1, g2, g3, g4⟩ := emitfs_spec st fs hg
    exact ⟨g1, by omega, g1.2.2, g3, g4⟩

theorem C1_witness :
    goodEmit (emit ⟨[], 0, 8⟩ 5 4) ∧ (emit ⟨[], 0, 8⟩ 5 4).bits ≤ 8 ∧
    (emit ⟨[], 0, 8⟩ 5 4).cur % 2 ^ (emit ⟨[], 0, 8⟩ 5 4).bits = 0 ∧
    streamLen (emit ⟨[], 0, 8⟩ 5 4) = streamLen ⟨[], 0, 8⟩ + 4 ∧
    streamVal (emit ⟨[], 0, 8⟩ 5 4) = streamVal ⟨[], 0, 8⟩ * 2 ^ 4 + 5 :=
  C1_emit_emitfs_cursor_invariant.1 ⟨[], 0, 8⟩ 5 4 (by decide) (by decide)
    (by decide) (by decide)

theorem preprocess_step_eq_claim (xmax prev cur : Nat)
    (hp : prev ≤ xmax) (hc : cur ≤ xmax) (hm : xmax < 4294967296) :
    preprocess_step xmax prev cur = claimPreStep xmax prev cur := by
  unfold preprocess_step claimPreStep
  split_ifs <;> omega

theorem preprocess_go_eq_claim (xmax : Nat) (prev : Nat) (l : List Nat)
    (hp : prev ≤ xmax) (hl : ∀ v ∈ l, v ≤ xmax) (hm : xmax < 4294967296) :
    preprocess_unsigned_go xmax prev l = List.zipWith (claimPreStep xmax) (prev :: l) l := by
  induction l generalizing prev with
  | nil => rfl
  | cons c rest ih =>
    simp only [preprocess_unsigned_go, List.zipWith]
    rw [preprocess_step_eq_claim xmax prev c hp (hl c (by simp)) hm,
      ih c (hl c (by simp)) (fun v hv => hl v (by simp [hv]))]

/-- C6: for every RSI of unsigned samples (all within `[0, xmax]`, with
`xmax < 2^32` as set up by `aec_encode_init`), the preprocessor produces
`d[0] = x[0]` and for `i ≥ 1` exactly the residuals stated in the claim
(`2·D`, `x[i]`, `2·D − 1` or `xmax − x[i]` according to the direction and
distance of the prediction error), and afterwards `ref = 1` and
`uncomp_len = (block_size − 1) · bits_per_sample`. -/
theorem C6_preprocess_unsigned (block_size bps xmax x0 : Nat) (rest : List Nat)
    (hx : ∀ v ∈ x0 :: rest, v ≤ xmax) (hm : xmax < 4294967296) :
    (preprocess_unsigned block_size bps xmax (x0 :: rest)).d =
      x0 :: List.zipWith (claimPreStep xmax) (x0 :: rest) rest ∧
    (preprocess_unsigned block_size bps xmax (x0 :: rest)).ref = 1 ∧
    (preprocess_unsigned block_size bps xmax (x0 :: rest)).uncomp_len =
      (block_size - 1) * bps := by
  refine ⟨?_, rfl, rfl⟩
  show x0 :: preprocess_unsigned_go xmax x0 rest = _
  rw [preprocess_go_eq_claim xmax x0 rest (hx x0 (by simp)) (fun v hv => hx v (by simp [hv])) hm]

theorem C6_witness :
    (preprocess_unsigned 8 8 255 [10, 12, 11, 200, 0]).d =
      10 :: List.zipWith (claimPreStep 255) [10, 12, 11, 200, 0] [12, 11, 200, 0] ∧
    (preprocess_unsigned 8 8 255 [10, 12, 11, 200, 0]).ref = 1 ∧
    (preprocess_unsigned 8 8 255 [10, 12, 11, 200, 0]).uncomp_len = (8 - 1) * 8 :=
  C6_preprocess_unsigned 8 8 255 10 [12, 11, 200, 0] (by decide) (by decide)

theorem se_loop_bad (ul : Nat) (l : List Nat) :
    ∀ len, (∃ p ∈ pairsOf l, ul < p.1 + p.2) → se_loop ul l len = 4294967295 := by
  induction l using pairsOf.induct with
  | case1 a b rest ih =>
    intro len hex
    rw [se_loop]
    by_cases hab : ul < a + b
    · rw [if_pos hab]
    · rw [if_neg hab]
      apply ih
      obtain ⟨p, hp, hpl⟩ := hex
      rcases (by simpa [pairsOf] using hp : p = (a, b) ∨ p ∈ pairsOf rest) with h | h
      · subst h
        exact absurd hpl hab
      · exact ⟨p, h, hpl⟩
  | case2 l hl =>
    intro len hex
    obtain ⟨p, hp, _⟩ := hex
    cases l with
    | nil => simp [pairsOf] at hp
    | cons a t =>
      cases t with
      | nil => simp [pairsOf] at hp
      | cons b r => exact absurd rfl (hl a b r)

theorem se_loop_good (ul : Nat) (l : List Nat) :
    ∀ len, len < 4294967296 → (∀ p ∈ pairsOf l, p.1 + p.2 ≤ ul) →
      se_loop ul l len = (len + seLenSpec l) % 4294967296 := by
  induction l using pairsOf.induct with
  | case1 a b rest ih =>
    intro len hlen hall
    have hab : ¬ ul < a + b := by
      have := hall (a, b) (by simp [pairsOf])
      omega
    rw [se_loop, if_neg hab]
    rw [ih _ (Nat.mod_lt _ (by norm_num)) (fun p hp => hall p (by simp [pairsOf, hp]))]
    show _ = (len + (((a + b) * (a + b + 1) / 2 + b + 1) + seLenSpec rest)) % 4294967296
    omega
  | case2 l hl =>
    intro len hlen _
    cases l with
    | nil => simp [se_loop, seLenSpec, pairsOf, Nat.mod_eq_of_lt hlen]
    | cons a t =>
      cases t with
      | nil => simp [se_loop, seLenSpec, pairsOf, Nat.mod_eq_of_lt hlen]
      | cons b r => exact absurd rfl (hl a b r)

theorem pairsOf_length (l : List Nat) : 2 * (pairsOf l).length ≤ l.length := by
  induction l using pairsOf.induct with
  | case1 a b rest ih => simpa [pairsOf] using by omega
  | case2 l hl =>
    cases l with
    | nil => simp [pairsOf]
    | cons a t =>
      cases t with
      | nil => simp [pairsOf]
      | cons b r => exact absurd rfl (hl a b r)

theorem seLenSpec_le (ul : Nat) (l : List Nat) (hu : ul ≤ 2048)
    (hall : ∀ p ∈ pairsOf l, p.1 + p.2 ≤ ul) :
    seLenSpec l ≤ 2100225 * (pairsOf l).length := by
  induction l using pairsOf.induct with
  | case1 a b rest ih =>
    have hab := hall (a, b) (by simp [pairsOf])
    simp only [seLenSpec, pairsOf, List.map_cons, List.sum_cons, List.length_cons] at *
    have hterm : (a + b) * (a + b + 1) / 2 + b + 1 ≤ 2100225 := by
      have h1 : (a + b) * (a + b + 1) ≤ 2048 * 2049 := by
        apply Nat.mul_le_mul <;> omega
      have h2 : (a + b) * (a + b + 1) / 2 ≤ 2048 * 2049 / 2 := by
        apply Nat.div_le_div_right h1
      norm_num at h2
      omega
    have hrest := ih (fun p hp => hall p (by simp [pairsOf, hp]))
    omega
  | case2 l hl =>
    cases l with
    | nil => simp [seLenSpec, pairsOf]
    | cons a t =>
      cases t with
      | nil => simp [seLenSpec, pairsOf]
      | cons b r => exact absurd rfl (hl a b r)

theorem minFold_cons (c : Nat) (l : List Nat) : minFold (c :: l) = min c (minFold l) := rfl

theorem splitLoopEq1 (block : List Nat) (ref : Bool) (this_bs kmax k0 k : Nat)
    (no_turn : Bool) (len_min k_min : Nat)
    (hlt : block_fs block ref k + this_bs * (k + 1) < len_min)
    (hcond : block_fs block ref k < this_bs ∨ kmax ≤ k)
    (hnt : (if len_min < 18446744073709551615 then true else no_turn) = true) :
    split_loop block ref this_bs kmax k0 k true no_turn len_min k_min =
      ⟨block_fs block ref k + this_bs * (k + 1), k, [k]⟩ := by
  rw [split_loop]
  dsimp only
  rw [if_pos hlt]
  try rw [if_pos rfl]
  rw [if_pos hcond, if_pos hnt]

theorem splitLoopEq2 (block : List Nat) (ref : Bool) (this_bs kmax k0 k : Nat)
    (no_turn : Bool) (len_min k_min : Nat)
    (hlt : block_fs block ref k + this_bs * (k + 1) < len_min)
    (hcond : block_fs block ref k < this_bs ∨ kmax ≤ k)
    (hnt : ¬ (if len_min < 18446744073709551615 then true else no_turn) = true) :
    split_loop block ref this_bs kmax k0 k true no_turn len_min k_min =
      ⟨(split_loop block ref this_bs kmax k0 (k0 - 1) false true
          (block_fs block ref k + this_bs * (k + 1)) k).len_min,
        (split_loop block ref this_bs kmax k0 (k0 - 1) false true
          (block_fs block ref k + this_bs * (k + 1)) k).k_min,
        k :: (split_loop block ref this_bs kmax k0 (k0 - 1) false true
          (block_fs block ref k + this_bs * (k + 1)) k).evaluated⟩ := by
  rw [split_loop]
  dsimp only
  rw [if_pos hlt]
  try rw [if_pos rfl]
  rw [if_pos hcond, if_neg hnt]

theorem splitLoopEq3 (block : List Nat) (ref : Bool) (this_bs kmax k0 k : Nat)
    (no_turn : Bool) (len_min k_min : Nat)
    (hlt : block_fs block ref k + this_bs * (k + 1) < len_min)
    (hcond : ¬ (block_fs block ref k < this_bs ∨ kmax ≤ k)) :
    split_loop block ref this_bs kmax k0 k true no_turn len_min k_min =
      ⟨(split_loop block ref this_bs kmax k0 (k + 1) true
          (if len_min < 18446744073709551615 then true else no_turn)
          (block_fs block ref k + this_bs * (k + 1)) k).len_min,
        (split_loop block ref this_bs kmax k0 (k + 1) true
          (if len_min < 18446744073709551615 then true else no_turn)
          (block_fs block ref k + this_bs * (k + 1)) k).k_min,
        k :: (split_loop block ref this_bs kmax k0 (k + 1) true
          (if len_min < 18446744073709551615 then true else no_turn)
          (block_fs block ref k + this_bs * (k + 1)) k).evaluated⟩ := by
  rw [split_loop]
  dsimp only
  rw [if_pos hlt]
  try rw [if_pos rfl]
  rw [if_neg hcond]

theorem splitLoopEq4 (block : List Nat) (ref : Bool) (this_bs kmax k0 k : Nat)
    (no_turn : Bool) (len_min k_min : Nat)
    (hlt : block_fs block ref k + this_bs * (k + 1) < len_min)
    (hcond : this_bs ≤ block_fs block ref k ∨ k = 0) :
    split_loop block ref this_bs kmax k0 k false no_turn len_min k_min =
      ⟨block_fs block ref k + this_bs * (k + 1), k, [k]⟩ := by
  rw [split_loop]
  dsimp only
  rw [if_pos hlt]
  try rw [if_neg (by simp : ¬ false = true)]
  rw [if_pos hcond]

theorem splitLoopEq5 (block : List Nat) (ref : Bool) (this_bs kmax k0 k : Nat)
    (no_turn : Bool) (len_min k_min : Nat)
    (hlt : block_fs block ref k + this_bs * (k + 1) < len_min)
    (hcond : ¬ (this_bs ≤ block_fs block ref k ∨ k = 0)) :
    split_loop block ref this_bs kmax k0 k false no_turn len_min k_min =
      ⟨(split_loop block ref this_bs kmax k0 (k - 1) false
          (if len_min < 18446744073709551615 then true else no_turn)
          (block_fs block ref k + this_bs * (k + 1)) k).len_min,
        (split_loop block ref this_bs kmax k0 (k - 1) false
          (if len_min < 18446744073709551615 then true else no_turn)
          (block_fs block ref k + this_bs * (k + 1)) k).k_min,
        k :: (split_loop block ref this_bs kmax k0 (k - 1) false
          (if len_min < 18446744073709551615 then true else no_turn)
          (block_fs block ref k + this_bs * (k + 1)) k).evaluated⟩ := by
  rw [split_loop]
  dsimp only
  rw [if_pos hlt]
  try rw [if_neg (by simp : ¬ false = true)]
  rw [if_neg hcond]

theorem splitLoopEq6 (block : List Nat) (ref : Bool) (this_bs kmax k0 k : Nat)
    (dir no_turn : Bool) (len_min k_min : Nat)
    (hge : ¬ block_fs block ref k + this_bs * (k + 1) < len_min)
    (hno : no_turn = true) :
    split_loop block ref this_bs kmax k0 k dir no_turn len_min k_min =
      ⟨len_min, k_min, [k]⟩ := by
  rw [split_loop]
  dsimp only
  rw [if_neg hge, if_pos hno]

theorem splitLoopEq7 (block : List Nat) (ref : Bool) (this_bs kmax k0 k : Nat)
    (dir no_turn : Bool) (len_min k_min : Nat)
    (hge : ¬ block_fs block ref k + this_bs * (k + 1) < len_min)
    (hno : ¬ no_turn = true) :
    split_loop block ref this_bs kmax k0 k dir no_turn len_min k_min =
      ⟨(split_loop block ref this_bs kmax k0 (k0 - 1) false true len_min k_min).len_min,
        (split_loop block ref this_bs kmax k0 (k0 - 1) false true len_min k_min).k_min,
        k :: (split_loop block ref this_bs kmax k0 (k0 - 1) false true
          len_min k_min).evaluated⟩ := by
  rw [split_loop]
  dsimp only
  rw [if_neg hge, if_neg hno]

theorem split_loop_min (block : List Nat) (ref : Bool) (this_bs kmax k0 : Nat)
    (hC : ∀ j, j ≤ max k0 kmax → splitCost block ref this_bs j < 18446744073709551615)
    (k : Nat) (dir no_turn : Bool) (len_min k_min : Nat) :
    k ≤ max k0 kmax →
    (len_min = 18446744073709551615 ∨ len_min = splitCost block ref this_bs k_min) →
    ((split_loop block ref this_bs kmax k0 k dir no_turn len_min k_min).len_min =
      min len_min (minFold (List.map (splitCost block ref this_bs)
        (split_loop block ref this_bs kmax k0 k dir no_turn len_min k_min).evaluated)) ∧
    (split_loop block ref this_bs kmax k0 k dir no_turn len_min k_min).len_min =
      splitCost block ref this_bs
        (split_loop block ref this_bs kmax k0 k dir no_turn len_min k_min).k_min ∧
    ((split_loop block ref this_bs kmax k0 k dir no_turn len_min k_min).k_min ∈
        (split_loop block ref this_bs kmax k0 k dir no_turn len_min k_min).evaluated ∨
      (split_loop block ref this_bs kmax k0 k dir no_turn len_min k_min).k_min = k_min) ∧
    (∀ j ∈ (split_loop block ref this_bs kmax k0 k dir no_turn len_min k_min).evaluated,
      j ≤ max k0 kmax) ∧
    (split_loop block ref this_bs kmax k0 k dir no_turn len_min k_min).evaluated.head? =
      some k) := by
  induction k, dir, no_turn, len_min, k_min using split_loop.induct with
  | block => exact block
  | ref => exact ref
  | this_bs => exact this_bs
  | kmax => exact kmax
  | k0 => exact k0
  | case1 k no_turn len_min k_min fs_len len hlt nt hcond hnt =>
    intro hk hinv
    unfold_let fs_len len at hlt hcond
    unfold_let nt fs_len len at hnt
    rw [splitLoopEq1 block ref this_bs kmax k0 k no_turn len_min k_min hlt hcond hnt]
    dsimp only
    have hcost := hC k hk
    have hck : splitCost block ref this_bs k = block_fs block ref k + this_bs * (k + 1) := rfl
    refine ⟨?_, hck.symm, Or.inl (by simp), ?_, rfl⟩
    · simp only [List.map_cons, List.map_nil, minFold_cons]
      have hm0 : minFold ([] : List Nat) = 18446744073709551615 := rfl
      omega
    · intro j hj
      simp at hj
      omega
  | case2 k no_turn len_min k_min fs_len len hlt nt hcond hnt ih =>
    intro hk hinv
    unfold_let fs_len len at hlt hcond
    unfold_let nt fs_len len at hnt
    unfold_let fs_len len at ih
    obtain ⟨ih1, ih2, ih3, ih4, ih5⟩ := ih (by omega) (Or.inr rfl)
    rw [splitLoopEq2 block ref this_bs kmax k0 k no_turn len_min k_min hlt hcond hnt]
    dsimp only
    have hck : splitCost block ref this_bs k = block_fs block ref k + this_bs * (k + 1) := rfl
    refine ⟨?_, ih2, ?_, ?_, rfl⟩
    · simp only [List.map_cons, minFold_cons]
      rw [ih1, ← hck]
      omega
    · rcases ih3 with h | h
      · exact Or.inl (List.mem_cons_of_mem _ h)
      · exact Or.inl (by rw [h]; exact List.mem_cons_self _ _)
    · intro j hj
      rcases List.mem_cons.mp hj with h | h
      · omega
      · exact ih4 j h
  | case3 k no_turn len_min k_min fs_len len hlt nt hcond ih =>
    intro hk hinv
    unfold_let fs_len len at hlt hcond
    unfold_let nt fs_len len at ih
    simp only [dite_eq_ite] at ih
    have hkk : k < kmax := by
      rcases not_or.mp hcond with ⟨h1, h2⟩
      omega
    obtain ⟨ih1, ih2, ih3, ih4, ih5⟩ := ih (by omega) (Or.inr rfl)
    rw [splitLoopEq3 block ref this_bs kmax k0 k no_turn len_min k_min hlt hcond]
    dsimp only
    have hck : splitCost block ref this_bs k = block_fs block ref k + this_bs * (k + 1) := rfl
    refine ⟨?_, ih2, ?_, ?_, rfl⟩
    · simp only [List.map_cons, minFold_cons]
      rw [ih1, ← hck]
      omega
    · rcases ih3 with h | h
      · exact Or.inl (List.mem_cons_of_mem _ h)
      · exact Or.inl (by rw [h]; exact List.mem_cons_self _ _)
    · intro j hj
      rcases List.mem_cons.mp hj with h | h
      · omega
      · exact ih4 j h
  | case4 k dir no_turn len_min k_min fs_len len hlt hdir hcond =>
    intro hk hinv
    unfold_let fs_len len at hlt hcond
    have hdir2 : dir = false := by
      cases dir
      · rfl
      · exact absurd rfl hdir
    subst hdir2
    rw [splitLoopEq4 block ref this_bs kmax k0 k no_turn len_min k_min hlt hcond]
    dsimp only
    have hcost := hC k hk
    have hck : splitCost block ref this_bs k = block_fs block ref k + this_bs * (k + 1) := rfl
    refine ⟨?_, hck.symm, Or.inl (by simp), ?_, rfl⟩
    · simp only [List.map_cons, List.map_nil, minFold_cons]
      have hm0 : minFold ([] : List Nat) = 18446744073709551615 := rfl
      omega
    · intro j hj
      simp at hj
      omega
  | case5 k dir no_turn len_min k_min fs_len len hlt nt hdir hcond ih =>
    intro hk hinv
    unfold_let fs_len len at hlt hcond
    unfold_let nt fs_len len at ih
    simp only [dite_eq_ite] at ih
    have hdir2 : dir = false := by
      cases dir
      · rfl
      · exact absurd rfl hdir
    subst hdir2
    obtain ⟨ih1, ih2, ih3, ih4, ih5⟩ := ih (by omega) (Or.inr rfl)
    rw [splitLoopEq5 block ref this_bs kmax k0 k no_turn len_min k_min hlt hcond]
    dsimp only
    have hck : splitCost block ref this_bs k = block_fs block ref k + this_bs * (k + 1) := rfl
    refine ⟨?_, ih2, ?_, ?_, rfl⟩
    · simp only [List.map_cons, minFold_cons]
      rw [ih1, ← hck]
      omega
    · rcases ih3 with h | h
      · exact Or.inl (List.mem_cons_of_mem _ h)
      · exact Or.inl (by rw [h]; exact List.mem_cons_self _ _)
    · intro j hj
      rcases List.mem_cons.mp hj with h | h
      · omega
      · exact ih4 j h
  | case6 k dir len_min k_min fs_len len hlt =>
    intro hk hinv
    unfold_let fs_len len at hlt
    rw [splitLoopEq6 block ref this_bs kmax k0 k dir true len_min k_min hlt rfl]
    dsimp only
    have hcost := hC k hk
    have hck : splitCost block ref this_bs k = block_fs block ref k + this_bs * (k + 1) := rfl
    have hlm : len_min = splitCost block ref this_bs k_min := by
      rcases hinv with h | h
      · rw [hck] at hcost
        omega
      · exact h
    refine ⟨?_, hlm, Or.inr rfl, ?_, rfl⟩
    · simp only [List.map_cons, List.map_nil, minFold_cons]
      have hm0 : minFold ([] : List Nat) = 18446744073709551615 := rfl
      rw [hck] at hcost
      omega
    · intro j hj
      simp at hj
      omega
  | case7 k dir no_turn len_min k_min fs_len len hlt hnt ih =>
    intro hk hinv
    unfold_let fs_len len at hlt
    obtain ⟨ih1, ih2, ih3, ih4, ih5⟩ := ih (by omega) hinv
    rw [splitLoopEq7 block ref this_bs kmax k0 k dir no_turn len_min k_min hlt hnt]
    dsimp only
    have hck : splitCost block ref this_bs k = block_fs block ref k + this_bs * (k + 1) := rfl
    refine ⟨?_, ih2, ?_, ?_, rfl⟩
    · simp only [List.map_cons, minFold_cons]
      rw [ih1]
      omega
    · rcases ih3 with h | h
      · exact Or.inl (List.mem_cons_of_mem _ h)
      · exact Or.inr h
    · intro j hj
      rcases List.mem_cons.mp hj with h | h
      · omega
      · exact ih4 j h

theorem split_loop_bound (block : List Nat) (ref : Bool) (this_bs kmax k0 : Nat)
    (hbs : 1 ≤ this_bs) (hk0 : k0 ≤ kmax)
    (hfs : block_fs block ref kmax ≤ 7 * this_bs)
    (hhalf : ∀ j, 2 * block_fs block ref (j + 1) ≤ block_fs block ref j)
    (hC : ∀ j, j ≤ kmax → splitCost block ref this_bs j < 18446744073709551615)
    (k : Nat) (dir no_turn : Bool) (len_min k_min : Nat) :
    k ≤ kmax →
    (dir = true →
      ((len_min = 18446744073709551615 ∧ k = k0) ∨
        (len_min = splitCost block ref this_bs (k - 1) ∧ k0 < k ∧
          (no_turn = false → len_min = splitCost block ref this_bs k0 ∧ k = k0 + 1)))) →
    (dir = false → len_min ≤ this_bs * (kmax + 9)) →
    (split_loop block ref this_bs kmax k0 k dir no_turn len_min k_min).len_min ≤
      this_bs * (kmax + 9) := by
  induction k, dir, no_turn, len_min, k_min using split_loop.induct with
  | block => exact block
  | ref => exact ref
  | this_bs => exact this_bs
  | kmax => exact kmax
  | k0 => exact k0
  | case1 k no_turn len_min k_min fs_len len hlt nt hcond hnt =>
    intro hk hup _
    unfold_let fs_len len at hlt hcond
    rw [splitLoopEq1 block ref this_bs kmax k0 k no_turn len_min k_min hlt hcond]
    · dsimp only
      have e1 : this_bs * (kmax + 9) = this_bs * (k + 1) + (this_bs * (kmax + 8 - k)) := by
        rw [← Nat.mul_add]
        congr 1
        omega
      rcases hcond with h | h
      · have e2 := Nat.mul_le_mul_left this_bs (show 1 ≤ kmax + 8 - k by omega)
        omega
      · have hkk : k = kmax := by omega
        have hfk : block_fs block ref k ≤ 7 * this_bs := by rw [hkk]; exact hfs
        have e2 : this_bs * (k + 1) + this_bs * 8 = this_bs * (kmax + 9) := by
          rw [hkk]
          ring
        omega
    · exact hnt
  | case2 k no_turn len_min k_min fs_len len hlt nt hcond hnt ih =>
    intro hk hup _
    unfold_let fs_len len at hlt hcond
    rw [splitLoopEq2 block ref this_bs kmax k0 k no_turn len_min k_min hlt hcond hnt]
    dsimp only
    apply ih (by omega) (fun h => absurd h (by simp))
    intro _
    have e1 : this_bs * (kmax + 9) = this_bs * (k + 1) + (this_bs * (kmax + 8 - k)) := by
      rw [← Nat.mul_add]
      congr 1
      omega
    rcases hcond with h | h
    · have e2 := Nat.mul_le_mul_left this_bs (show 1 ≤ kmax + 8 - k by omega)
      omega
    · have hkk : k = kmax := by omega
      have hfk : block_fs block ref k ≤ 7 * this_bs := by rw [hkk]; exact hfs
      have e2 : this_bs * (k + 1) + this_bs * 8 = this_bs * (kmax + 9) := by
        rw [hkk]
        ring
      omega
  | case3 k no_turn len_min k_min fs_len len hlt nt hcond ih =>
    intro hk hup _
    unfold_let fs_len len at hlt hcond
    unfold_let nt fs_len len at ih
    simp only [dite_eq_ite] at ih
    have hkk : k < kmax := by
      rcases not_or.mp hcond with ⟨h1, h2⟩
      omega
    rw [splitLoopEq3 block ref this_bs kmax k0 k no_turn len_min k_min hlt hcond]
    dsimp only
    apply ih (by omega) ?_ (fun h => absurd h (by simp))
    intro _
    right
    have hck : splitCost block ref this_bs k = block_fs block ref k + this_bs * (k + 1) := rfl
    have hk0k : k0 ≤ k := by
      rcases hup rfl with ⟨_, h⟩ | ⟨_, h, _⟩
      · omega
      · omega
    refine ⟨by simp [hck], by omega, ?_⟩
    intro hntf
    have hnt2 : ¬ len_min < 18446744073709551615 ∧ no_turn = false := by
      by_cases hl : len_min < 18446744073709551615
      · rw [if_pos hl] at hntf
        exact absurd hntf (by simp)
      · rw [if_neg hl] at hntf
        exact ⟨hl, hntf⟩
    rcases hup rfl with ⟨hl, hkk0⟩ | ⟨hl, _, _⟩
    · subst hkk0
      exact ⟨by simp [hck], rfl⟩
    · have := hC (k - 1) (by omega)
      omega
  | case4 k dir no_turn len_min k_min fs_len len hlt hdir hcond =>
    intro hk hup hdown
    unfold_let fs_len len at hlt hcond
    have hdir2 : dir = false := by
      cases dir
      · rfl
      · exact absurd rfl hdir
    subst hdir2
    rw [splitLoopEq4 block ref this_bs kmax k0 k no_turn len_min k_min hlt hcond]
    dsimp only
    have := hdown rfl
    omega
  | case5 k dir no_turn len_min k_min fs_len len hlt nt hdir hcond ih =>
    intro hk hup hdown
    unfold_let fs_len len at hlt hcond
    unfold_let nt fs_len len at ih
    simp only [dite_eq_ite] at ih
    have hdir2 : dir = false := by
      cases dir
      · rfl
      · exact absurd rfl hdir
    subst hdir2
    rw [splitLoopEq5 block ref this_bs kmax k0 k no_turn len_min k_min hlt hcond]
    dsimp only
    apply ih (by omega) (fun h => absurd h (by simp))
    intro _
    have := hdown rfl
    omega
  | case6 k dir len_min k_min fs_len len hlt =>
    intro hk hup hdown
    unfold_let fs_len len at hlt
    rw [splitLoopEq6 block ref this_bs kmax k0 k dir true len_min k_min hlt rfl]
    dsimp only
    cases dir
    · exact hdown rfl
    · rcases hup rfl with ⟨hl, _⟩ | ⟨hl, hkpos, _⟩
      · have := hC k hk
        have hck : splitCost block ref this_bs k =
            block_fs block ref k + this_bs * (k + 1) := rfl
        omega
      · have hck1 : splitCost block ref this_bs (k - 1) =
            block_fs block ref (k - 1) + this_bs * k := by
          show block_fs block ref (k - 1) + this_bs * (k - 1 + 1) = _
          congr 2
          omega
        have hhalf2 := hhalf (k - 1)
        rw [Nat.sub_add_cancel (by omega : 1 ≤ k)] at hhalf2
        have hfs2 : block_fs block ref (k - 1) ≤ 2 * this_bs := by
          have e : this_bs * (k + 1) = this_bs * k + this_bs := by ring
          omega
        have e1 : this_bs * k ≤ this_bs * kmax := Nat.mul_le_mul_left this_bs hk
        have e2 : this_bs * (kmax + 9) = this_bs * kmax + this_bs * 9 := by ring
        omega
  | case7 k dir no_turn len_min k_min fs_len len hlt hnt ih =>
    intro hk hup hdown
    unfold_let fs_len len at hlt
    rw [splitLoopEq7 block ref this_bs kmax k0 k dir no_turn len_min k_min hlt hnt]
    dsimp only
    apply ih (by omega) (fun h => absurd h (by simp))
    intro _
    cases dir
    · exact hdown rfl
    · have hno : no_turn = false := by
        cases no_turn
        · rfl
        · exact absurd rfl hnt
      rcases hup rfl with ⟨hl, _⟩ | ⟨hl, hkpos, hcl⟩
      · have := hC k hk
        have hck : splitCost block ref this_bs k =
            block_fs block ref k + this_bs * (k + 1) := rfl
        omega
      · obtain ⟨hl0, hkk0⟩ := hcl hno
        subst hkk0
        have hck0 : splitCost block ref this_bs k0 =
            block_fs block ref k0 + this_bs * (k0 + 1) := rfl
        have hck : splitCost block ref this_bs (k0 + 1) =
            block_fs block ref (k0 + 1) + this_bs * (k0 + 1 + 1) := rfl
        have hhalf2 := hhalf k0
        have hfs2 : block_fs block ref k0 ≤ 2 * this_bs := by
          have e : this_bs * (k0 + 1 + 1) = this_bs * (k0 + 1) + this_bs := by ring
          omega
        have e1 : this_bs * (k0 + 1) ≤ this_bs * kmax + this_bs := by
          have := Nat.mul_le_mul_left this_bs (show k0 ≤ kmax from hk0)
          have e : this_bs * (k0 + 1) = this_bs * k0 + this_bs := by ring
          have e2 : this_bs * (kmax + 1) = this_bs * kmax + this_bs := by ring
          omega
        have e2 : this_bs * (kmax + 9) = this_bs * kmax + this_bs * 9 := by ring
        omega

theorem split_loop_shape (block : List Nat) (ref : Bool) (this_bs kmax k0 : Nat)
    (k : Nat) (dir no_turn : Bool) (len_min k_min : Nat) :
    (dir = true → k ≤ kmax →
      ∃ n m, (split_loop block ref this_bs kmax k0 k dir no_turn len_min k_min).evaluated =
        List.range' k n 1 ++ (List.range' (k0 - 1 + 1 - m) m 1).reverse ∧
        1 ≤ n ∧ k + n ≤ kmax + 1 ∧ m ≤ k0 - 1 + 1 ∧ (no_turn = true → m = 0)) ∧
    (dir = false → no_turn = true →
      ∃ m, (split_loop block ref this_bs kmax k0 k dir no_turn len_min k_min).evaluated =
        (List.range' (k + 1 - m) m 1).reverse ∧ 1 ≤ m ∧ m ≤ k + 1) := by
  induction k, dir, no_turn, len_min, k_min using split_loop.induct with
  | block => exact block
  | ref => exact ref
  | this_bs => exact this_bs
  | kmax => exact kmax
  | k0 => exact k0
  | case1 k no_turn len_min k_min fs_len len hlt nt hcond hnt =>
    unfold_let fs_len len at hlt hcond
    unfold_let nt fs_len len at hnt
    rw [splitLoopEq1 block ref this_bs kmax k0 k no_turn len_min k_min hlt hcond hnt]
    dsimp only
    constructor
    · intro _ hk
      refine ⟨1, 0, by simp, by omega, by omega, by omega, fun _ => rfl⟩
    · intro h
      exact absurd h (by simp)
  | case2 k no_turn len_min k_min fs_len len hlt nt hcond hnt ih =>
    unfold_let fs_len len at hlt hcond
    unfold_let nt fs_len len at hnt
    unfold_let fs_len len at ih
    simp only [dite_eq_ite] at hnt
    rw [splitLoopEq2 block ref this_bs kmax k0 k no_turn len_min k_min hlt hcond hnt]
    dsimp only
    have hnof : no_turn = false := by
      by_cases hl : len_min < 18446744073709551615
      · rw [if_pos hl] at hnt
        exact absurd rfl hnt
      · rw [if_neg hl] at hnt
        cases no_turn
        · rfl
        · exact absurd rfl hnt
    constructor
    · intro _ hk
      obtain ⟨m, hm1, hm2, hm3⟩ := ih.2 rfl rfl
      refine ⟨1, m, ?_, by omega, by omega, by omega, ?_⟩
      · rw [hm1]
        simp [List.range'_one]
      · intro h
        rw [hnof] at h
        exact absurd h (by simp)
    · intro h
      exact absurd h (by simp)
  | case3 k no_turn len_min k_min fs_len len hlt nt hcond ih =>
    unfold_let fs_len len at hlt hcond
    unfold_let nt fs_len len at ih
    simp only [dite_eq_ite] at ih
    have hkk : k < kmax := by
      rcases not_or.mp hcond with ⟨h1, h2⟩
      omega
    rw [splitLoopEq3 block ref this_bs kmax k0 k no_turn len_min k_min hlt hcond]
    dsimp only
    constructor
    · intro _ hk
      obtain ⟨n, m, hm1, hm2, hm3, hm4, hm5⟩ := ih.1 trivial (by omega)
      refine ⟨n + 1, m, ?_, by omega, by omega, by omega, ?_⟩
      · rw [hm1]
        rw [List.range'_succ]
        simp
      · intro h
        apply hm5
        by_cases hl : len_min < 18446744073709551615
        · rw [if_pos hl]
        · rw [if_neg hl]
          exact h
    · intro h
      exact absurd h (by simp)
  | case4 k dir no_turn len_min k_min fs_len len hlt hdir hcond =>
    unfold_let fs_len len at hlt hcond
    have hdir2 : dir = false := by
      cases dir
      · rfl
      · exact absurd rfl hdir
    subst hdir2
    rw [splitLoopEq4 block ref this_bs kmax k0 k no_turn len_min k_min hlt hcond]
    dsimp only
    constructor
    · intro h
      exact absurd h (by simp)
    · intro _ _
      refine ⟨1, ?_, by omega, by omega⟩
      simp [List.range'_one]
  | case5 k dir no_turn len_min k_min fs_len len hlt nt hdir hcond ih =>
    unfold_let fs_len len at hlt hcond
    unfold_let nt fs_len len at ih
    simp only [dite_eq_ite] at ih
    have hdir2 : dir = false := by
      cases dir
      · rfl
      · exact absurd rfl hdir
    subst hdir2
    have hkpos : 1 ≤ k := by
      rcases not_or.mp hcond with ⟨h1, h2⟩
      omega
    rw [splitLoopEq5 block ref this_bs kmax k0 k no_turn len_min k_min hlt hcond]
    dsimp only
    constructor
    · intro h
      exact absurd h (by simp)
    · intro _ hno
      have hnt2 : (if len_min < 18446744073709551615 then true else no_turn) = true := by
        by_cases hl : len_min < 18446744073709551615
        · rw [if_pos hl]
        · rw [if_neg hl]
          exact hno
      obtain ⟨m, hm1, hm2, hm3⟩ := ih.2 trivial hnt2
      refine ⟨m + 1, ?_, by omega, by omega⟩
      rw [hm1]
      have e1 : k - 1 + 1 - m = k + 1 - (m + 1) := by omega
      rw [e1]
      have e2 : List.range' (k + 1 - (m + 1)) (m + 1) 1 =
          List.range' (k + 1 - (m + 1)) m 1 ++ [k] := by
        have := @List.range'_concat 1 (k + 1 - (m + 1)) m
        rw [this]
        congr 2
        omega
      rw [e2, List.reverse_append]
      simp
  | case6 k dir len_min k_min fs_len len hlt =>
    unfold_let fs_len len at hlt
    rw [splitLoopEq6 block ref this_bs kmax k0 k dir true len_min k_min hlt rfl]
    dsimp only
    constructor
    · intro _ hk
      refine ⟨1, 0, by simp, by omega, by omega, by omega, fun _ => rfl⟩
    · intro _ _
      refine ⟨1, ?_, by omega, by omega⟩
      simp [List.range'_one]
  | case7 k dir no_turn len_min k_min fs_len len hlt hnt ih =>
    unfold_let fs_len len at hlt
    rw [splitLoopEq7 block ref this_bs kmax k0 k dir no_turn len_min k_min hlt hnt]
    dsimp only
    have hnof : no_turn = false := by
      cases no_turn
      · rfl
      · exact absurd rfl hnt
    constructor
    · intro _ hk
      obtain ⟨m, hm1, hm2, hm3⟩ := ih.2 rfl rfl
      refine ⟨1, m, ?_, by omega, by omega, by omega, ?_⟩
      · rw [hm1]
        simp [List.range'_one]
      · intro h
        rw [hnof] at h
        exact absurd h (by simp)
    · intro _ hno
      rw [hnof] at hno
      exact absurd hno (by simp)

/-- `block_fs` equals the plain sum of `block[i] >> k` over `i ∈ [ref, block_size)`
from the claim (the code sums everything and subtracts the reference's term). -/
theorem block_fs_eq_drop (block : List Nat) (ref : Bool) (k : Nat) :
    block_fs block ref k =
      ((block.drop (if ref then 1 else 0)).map (fun b => b / 2 ^ k)).sum := by
  cases ref with
  | false => simp [block_fs]
  | true =>
    cases block with
    | nil => simp [block_fs]
    | cons x t => simp [block_fs]

theorem block_fs_halving (block : List Nat) (ref : Bool) (j : Nat) :
    2 * block_fs block ref (j + 1) ≤ block_fs block ref j := by
  rw [block_fs_eq_drop, block_fs_eq_drop]
  rw [← List.sum_map_mul_left]
  apply List.sum_le_sum
  intro b _
  have h1 : b / 2 ^ (j + 1) = b / 2 ^ j / 2 := by
    rw [Nat.div_div_eq_div_mul, pow_succ]
  rw [h1]
  have := Nat.div_mul_le_self (b / 2 ^ j) 2
  omega

theorem block_fs_kmax_le (block : List Nat) (ref : Bool) (kmax : Nat)
    (helem : ∀ b ∈ block, b < 2 ^ (kmax + 3)) :
    block_fs block ref kmax ≤ 7 * (block.drop (if ref then 1 else 0)).length := by
  rw [block_fs_eq_drop]
  have h := List.sum_le_card_nsmul ((block.drop (if ref then 1 else 0)).map
    (fun b => b / 2 ^ kmax)) 7 ?_
  · simpa [mul_comm] using h
  · intro x hx
    obtain ⟨b, hb, hbx⟩ := List.mem_map.mp hx
    have hbe : b < 2 ^ (kmax + 3) := helem b (List.mem_of_mem_drop hb)
    have : b / 2 ^ kmax < 8 := by
      apply Nat.div_lt_of_lt_mul
      calc b < 2 ^ (kmax + 3) := hbe
      _ = 2 ^ kmax * 8 := by rw [pow_add]; norm_num
    omega

theorem block_fs_le_sum (block : List Nat) (ref : Bool) (j : Nat) :
    block_fs block ref j ≤ block.sum := by
  rw [block_fs_eq_drop]
  calc ((block.drop (if ref then 1 else 0)).map (fun b => b / 2 ^ j)).sum
      ≤ ((block.drop (if ref then 1 else 0)).map (fun b => b)).sum := by
        apply List.sum_le_sum
        intro b _
        exact Nat.div_le_self _ _
  _ = (block.drop (if ref then 1 else 0)).sum := by rw [List.map_id']
  _ ≤ block.sum := by
      conv_rhs => rw [← List.take_append_drop (if ref then 1 else 0) block]
      rw [List.sum_append]
      omega

theorem minFold_le (l : List Nat) : minFold l ≤ 18446744073709551615 := by
  induction l with
  | nil => exact le_refl _
  | cons c t ih =>
    rw [minFold_cons]
    omega

/-- `k_min` on return is either the seed `k_min` or one of the evaluated
`k` values. -/
theorem split_loop_kmin (block : List Nat) (ref : Bool) (this_bs kmax k0 : Nat)
    (k : Nat) (dir no_turn : Bool) (len_min k_min : Nat) :
    (split_loop block ref this_bs kmax k0 k dir no_turn len_min k_min).k_min = k_min ∨
    (split_loop block ref this_bs kmax k0 k dir no_turn len_min k_min).k_min ∈
      (split_loop block ref this_bs kmax k0 k dir no_turn len_min k_min).evaluated := by
  induction k, dir, no_turn, len_min, k_min using split_loop.induct with
  | block => exact block
  | ref => exact ref
  | this_bs => exact this_bs
  | kmax => exact kmax
  | k0 => exact k0
  | case1 k no_turn len_min k_min fs_len len hlt nt hcond hnt =>
    unfold_let fs_len len at hlt hcond
    unfold_let nt fs_len len at hnt
    rw [splitLoopEq1 block ref this_bs kmax k0 k no_turn len_min k_min hlt hcond hnt]
    exact Or.inr (by simp)
  | case2 k no_turn len_min k_min fs_len len hlt nt hcond hnt ih =>
    unfold_let fs_len len at hlt hcond
    unfold_let nt fs_len len at hnt
    rw [splitLoopEq2 block ref this_bs kmax k0 k no_turn len_min k_min hlt hcond hnt]
    dsimp only
    rcases ih with h | h
    · exact Or.inr (by rw [h]; exact List.mem_cons_self _ _)
    · exact Or.inr (List.mem_cons_of_mem _ h)
  | case3 k no_turn len_min k_min fs_len len hlt nt hcond ih =>
    unfold_let fs_len len at hlt hcond
    unfold_let nt fs_len len at ih
    rw [splitLoopEq3 block ref this_bs kmax k0 k no_turn len_min k_min hlt hcond]
    dsimp only
    simp only [dite_eq_ite] at ih
    rcases ih with h | h
    · exact Or.inr (by rw [h]; exact List.mem_cons_self _ _)
    · exact Or.inr (List.mem_cons_of_mem _ h)
  | case4 k dir no_turn len_min k_min fs_len len hlt hdir hcond =>
    unfold_let fs_len len at hlt hcond
    have hdir2 : dir = false := by
      cases dir
      · rfl
      · exact absurd rfl hdir
    subst hdir2
    rw [splitLoopEq4 block ref this_bs kmax k0 k no_turn len_min k_min hlt hcond]
    exact Or.inr (by simp)
  | case5 k dir no_turn len_min k_min fs_len len hlt nt hdir hcond ih =>
    unfold_let fs_len len at hlt hcond
    unfold_let nt fs_len len at ih
    have hdir2 : dir = false := by
      cases dir
      · rfl
      · exact absurd rfl hdir
    subst hdir2
    rw [splitLoopEq5 block ref this_bs kmax k0 k no_turn len_min k_min hlt hcond]
    dsimp only
    simp only [dite_eq_ite] at ih
    rcases ih with h | h
    · exact Or.inr (by rw [h]; exact List.mem_cons_self _ _)
    · exact Or.inr (List.mem_cons_of_mem _ h)
  | case6 k dir len_min k_min fs_len len hlt =>
    unfold_let fs_len len at hlt
    rw [splitLoopEq6 block ref this_bs kmax k0 k dir true len_min k_min hlt rfl]
    exact Or.inl rfl
  | case7 k dir no_turn len_min k_min fs_len len hlt hnt ih =>
    unfold_let fs_len len at hlt
    rw [splitLoopEq7 block ref this_bs kmax k0 k dir no_turn len_min k_min hlt hnt]
    dsimp only
    rcases ih with h | h
    · exact Or.inl h
    · exact Or.inr (List.mem_cons_of_mem _ h)

/-- C3: every candidate length evaluated by the k-search equals
`fs_sum(k) + this_bs * (k + 1)` with `fs_sum(k) = Σ block[i] >> k` over
`i ∈ [ref, block_size)`; the value returned by `assess_splitting_option`
is the minimum of those lengths over the evaluated `k`s, and `state->k`
(here `k_min`) attains that minimum.  The hypotheses are the caller's
invariants: at most 64 samples, `kmax ≤ 29`, the seed `k0 ≤ kmax`, sample
residuals below `2^(kmax+3)` (the identifier width always covers
`bits_per_sample`), and at least one non-reference sample. -/
theorem C3_assess_splitting (block : List Nat) (ref : Bool) (kmax k0 : Nat)
    (hlen : block.length ≤ 64) (hkm : kmax ≤ 29) (hk0 : k0 ≤ kmax)
    (helem : ∀ b ∈ block, b < 2 ^ (kmax + 3))
    (href : (if ref then 1 else 0) < block.length) :
    (∀ j, splitCost block ref (block.length - (if ref then 1 else 0)) j =
      ((block.drop (if ref then 1 else 0)).map (fun b => b / 2 ^ j)).sum +
        (block.length - (if ref then 1 else 0)) * (j + 1)) ∧
    (assess_splitting_run block ref kmax k0).len_min =
      minFold (List.map (splitCost block ref (block.length - (if ref then 1 else 0)))
        (assess_splitting_run block ref kmax k0).evaluated) ∧
    (assess_splitting_run block ref kmax k0).k_min ∈
      (assess_splitting_run block ref kmax k0).evaluated ∧
    splitCost block ref (block.length - (if ref then 1 else 0))
      (assess_splitting_run block ref kmax k0).k_min =
      (assess_splitting_run block ref kmax k0).len_min ∧
    assess_splitting_option block ref kmax k0 =
      (assess_splitting_run block ref kmax k0).len_min := by
  have hsum_le : block.sum ≤ 64 * 2 ^ 32 := by
    have h1 := List.sum_le_card_nsmul block (2 ^ 32) ?_
    · rw [smul_eq_mul] at h1
      calc block.sum ≤ block.length * 2 ^ 32 := h1
      _ ≤ 64 * 2 ^ 32 := Nat.mul_le_mul_right _ hlen
    · intro b hb
      have h2 := helem b hb
      calc b ≤ 2 ^ (kmax + 3) := by omega
      _ ≤ 2 ^ 32 := Nat.pow_le_pow_right (by norm_num) (by omega)
  have hC : ∀ j, j ≤ max k0 kmax →
      splitCost block ref (block.length - (if ref then 1 else 0)) j <
        18446744073709551615 := by
    intro j hj
    have h1 := block_fs_le_sum block ref j
    have h2 : (block.length - (if ref then 1 else 0)) * (j + 1) ≤ 64 * 30 :=
      Nat.mul_le_mul (by omega) (by omega)
    have hck : splitCost block ref (block.length - (if ref then 1 else 0)) j =
        block_fs block ref j + (block.length - (if ref then 1 else 0)) * (j + 1) := rfl
    omega
  obtain ⟨P1, P2, P3, P4, P5⟩ := split_loop_min block ref
    (block.length - (if ref then 1 else 0)) kmax k0 hC k0 true (k0 == 0)
    18446744073709551615 k0 (le_max_left _ _) (Or.inl rfl)
  have hrun : assess_splitting_run block ref kmax k0 =
      split_loop block ref (block.length - (if ref then 1 else 0)) kmax k0 k0 true
        (k0 == 0) 18446744073709551615 k0 := rfl
  refine ⟨?_, ?_, ?_, ?_, ?_⟩
  · intro j
    rw [show splitCost block ref (block.length - (if ref then 1 else 0)) j =
      block_fs block ref j + (block.length - (if ref then 1 else 0)) * (j + 1) from rfl,
      block_fs_eq_drop]
  · rw [hrun, P1]
    have := minFold_le (List.map (splitCost block ref
      (block.length - (if ref then 1 else 0)))
      (split_loop block ref (block.length - (if ref then 1 else 0)) kmax k0 k0 true
        (k0 == 0) 18446744073709551615 k0).evaluated)
    omega
  · rw [hrun]
    rcases P3 with h | h
    · exact h
    · rw [h]
      cases hev : (split_loop block ref (block.length - (if ref then 1 else 0)) kmax k0
          k0 true (k0 == 0) 18446744073709551615 k0).evaluated with
      | nil =>
        rw [hev] at P5
        exact absurd P5 (by simp)
      | cons a t =>
        rw [hev] at P5
        simp at P5
        rw [← P5]
        exact List.mem_cons_self a t
  · rw [hrun]
    exact P2.symm
  · have hfsb : block_fs block ref kmax ≤
        7 * (block.length - (if ref then 1 else 0)) := by
      have h := block_fs_kmax_le block ref kmax helem
      rwa [List.length_drop] at h
    have hbound := split_loop_bound block ref (block.length - (if ref then 1 else 0))
      kmax k0 (by omega) hk0 hfsb (block_fs_halving block ref)
      (fun j hj => hC j (le_trans hj (le_max_right _ _)))
      k0 true (k0 == 0) 18446744073709551615 k0 hk0
      (fun _ => Or.inl ⟨rfl, rfl⟩) (fun h => absurd h (by simp))
    have hsmall : (assess_splitting_run block ref kmax k0).len_min < 4294967296 := by
      have h2 : (block.length - (if ref then 1 else 0)) * (kmax + 9) ≤ 64 * 38 :=
        Nat.mul_le_mul (by omega) (by omega)
      have h3 : (assess_splitting_run block ref kmax k0).len_min ≤
          (block.length - (if ref then 1 else 0)) * (kmax + 9) := hbound
      omega
    show (assess_splitting_run block ref kmax k0).len_min % 4294967296 = _
    exact Nat.mod_eq_of_lt hsmall

theorem C3_witness :
    (∀ j, splitCost [3, 7, 1, 0, 2, 5, 9, 4] false
        ([3, 7, 1, 0, 2, 5, 9, 4].length - (if false then 1 else 0)) j =
      (([3, 7, 1, 0, 2, 5, 9, 4].drop (if false then 1 else 0)).map
        (fun b => b / 2 ^ j)).sum +
        ([3, 7, 1, 0, 2, 5, 9, 4].length - (if false then 1 else 0)) * (j + 1)) ∧
    (assess_splitting_run [3, 7, 1, 0, 2, 5, 9, 4] false 5 3).len_min =
      minFold (List.map (splitCost [3, 7, 1, 0, 2, 5, 9, 4] false
        ([3, 7, 1, 0, 2, 5, 9, 4].length - (if false then 1 else 0)))
        (assess_splitting_run [3, 7, 1, 0, 2, 5, 9, 4] false 5 3).evaluated) ∧
    (assess_splitting_run [3, 7, 1, 0, 2, 5, 9, 4] false 5 3).k_min ∈
      (assess_splitting_run [3, 7, 1, 0, 2, 5, 9, 4] false 5 3).evaluated ∧
    splitCost [3, 7, 1, 0, 2, 5, 9, 4] false
      ([3, 7, 1, 0, 2, 5, 9, 4].length - (if false then 1 else 0))
      (assess_splitting_run [3, 7, 1, 0, 2, 5, 9, 4] false 5 3).k_min =
      (assess_splitting_run [3, 7, 1, 0, 2, 5, 9, 4] false 5 3).len_min ∧
    assess_splitting_option [3, 7, 1, 0, 2, 5, 9, 4] false 5 3 =
      (assess_splitting_run [3, 7, 1, 0, 2, 5, 9, 4] false 5 3).len_min :=
  C3_assess_splitting [3, 7, 1, 0, 2, 5, 9, 4] false 5 3 (by decide) (by decide)
    (by decide) (by decide) (by decide)

/-- C10: for every block content and every seed `state->k = k0 ∈ [0, kmax]`,
the k-search terminates (the Lean model is a total function): the evaluated
`k`s form one strictly increasing run starting at `k0` and bounded by
`kmax`, optionally followed after a single reversal by one strictly
decreasing run from `k0 - 1` bounded below by `0`; the whole search makes at
most `kmax + 1` evaluations, and on return `state->k = k_min ∈ [0, kmax]`. -/
theorem C10_ksearch_terminates (block : List Nat) (ref : Bool) (kmax k0 : Nat)
    (hk0 : k0 ≤ kmax) :
    ∃ n m,
      (assess_splitting_run block ref kmax k0).evaluated =
        List.range' k0 n 1 ++ (List.range' (k0 - m) m 1).reverse ∧
      1 ≤ n ∧ k0 + n ≤ kmax + 1 ∧ m ≤ k0 ∧
      (assess_splitting_run block ref kmax k0).evaluated.length ≤ kmax + 1 ∧
      (assess_splitting_run block ref kmax k0).k_min ≤ kmax := by
  have hrun : assess_splitting_run block ref kmax k0 =
      split_loop block ref (block.length - (if ref then 1 else 0)) kmax k0 k0 true
        (k0 == 0) 18446744073709551615 k0 := rfl
  obtain ⟨n, m, hev, hn, hkn, hm, hcl⟩ :=
    (split_loop_shape block ref (block.length - (if ref then 1 else 0)) kmax k0
      k0 true (k0 == 0) 18446744073709551615 k0).1 rfl hk0
  have hm0 : (assess_splitting_run block ref kmax k0).evaluated =
      List.range' k0 n 1 ++ (List.range' (k0 - m) m 1).reverse ∧ m ≤ k0 := by
    rw [hrun]
    by_cases h0 : k0 = 0
    · have hmm : m = 0 := hcl (by simp [h0])
      subst hmm
      subst h0
      exact ⟨by simpa using hev, le_refl 0⟩
    · have e : k0 - 1 + 1 = k0 := by omega
      rw [e] at hev hm
      exact ⟨hev, hm⟩
  have hklen : (assess_splitting_run block ref kmax k0).evaluated.length = n + m := by
    rw [hm0.1]
    simp [List.length_append, List.length_reverse, List.length_range']
  refine ⟨n, m, hm0.1, hn, hkn, hm0.2, by omega, ?_⟩
  rcases split_loop_kmin block ref (block.length - (if ref then 1 else 0)) kmax k0
      k0 true (k0 == 0) 18446744073709551615 k0 with h | h
  · rw [hrun, h]
    omega
  · rw [hrun]
    have hmem : (split_loop block ref (block.length - (if ref then 1 else 0)) kmax k0
        k0 true (k0 == 0) 18446744073709551615 k0).k_min ∈
        List.range' k0 n 1 ++ (List.range' (k0 - m) m 1).reverse := by
      rw [← hrun, ← hm0.1, hrun]
      exact h
    rcases List.mem_append.mp hmem with h2 | h2
    · have := (List.mem_range'_1).mp h2
      omega
    · rw [List.mem_reverse] at h2
      have := (List.mem_range'_1).mp h2
      omega

theorem C10_witness :
    ∃ n m,
      (assess_splitting_run [3, 7, 1, 0, 2, 5, 9, 4] false 5 3).evaluated =
        List.range' 3 n 1 ++ (List.range' (3 - m) m 1).reverse ∧
      1 ≤ n ∧ 3 + n ≤ 5 + 1 ∧ m ≤ 3 ∧
      (assess_splitting_run [3, 7, 1, 0, 2, 5, 9, 4] false 5 3).evaluated.length ≤ 5 + 1 ∧
      (assess_splitting_run [3, 7, 1, 0, 2, 5, 9, 4] false 5 3).k_min ≤ 5 :=
  C10_ksearch_terminates [3, 7, 1, 0, 2, 5, 9, 4] false 5 3 (by decide)

/-- C4: `assess_se_option` returns `1` plus the sum over consecutive sample
pairs `(a, b)` (even `i`) of `d·(d+1)/2 + b + 1` with `d = a + b`, provided
every pair has `d ≤ uncomp_len`; if any pair has `d > uncomp_len` it
returns `UINT32_MAX`.  The hypotheses `uncomp_len ≤ 2048` and
`block_size ≤ 64` are the caller's invariants
(`uncomp_len ≤ block_size · bits_per_sample ≤ 64 · 32`); they rule out
`uint32_t` wrap-around of the accumulator. -/
theorem C4_assess_se_option (uncomp_len : Nat) (block : List Nat)
    (hu : uncomp_len ≤ 2048) (hl : block.length ≤ 64) :
    ((∀ p ∈ pairsOf block, p.1 + p.2 ≤ uncomp_len) →
      assess_se_option uncomp_len block = 1 + seLenSpec block) ∧
    ((∃ p ∈ pairsOf block, uncomp_len < p.1 + p.2) →
      assess_se_option uncomp_len block = 4294967295) := by
  constructor
  · intro hall
    unfold assess_se_option
    rw [se_loop_good uncomp_len block 1 (by norm_num) hall]
    have h1 := seLenSpec_le uncomp_len block hu hall
    have h2 := pairsOf_length block
    omega
  · intro hex
    exact se_loop_bad uncomp_len block 1 hex

theorem C4_witness :
    assess_se_option 56 [3, 4, 1, 0] = 1 + seLenSpec [3, 4, 1, 0] :=
  (C4_assess_se_option 56 [3, 4, 1, 0] (by norm_num) (by decide)).1 (by decide)

/-- C5: `split_len` is the splitting assessment exactly when `id_len > 1`
and `UINT32_MAX` otherwise; when `split_len < uncomp_len` the encoder picks
whichever of Splitting and SE has the smaller length, and otherwise
whichever of Uncompressed and SE has the smaller length (ties go to SE in
the first comparison and to Uncompressed in the second, matching `<` and
`<=` in the code). -/
theorem C5_select_code_option (block : List Nat) (ref : Bool)
    (kmax k0 id_len uncomp_len : Nat) :
    ((if 1 < id_len then assess_splitting_option block ref kmax k0 else 4294967295) <
        uncomp_len →
      ((m_select_code_option block ref kmax k0 id_len uncomp_len = CodeOption.splitting ∧
          (if 1 < id_len then assess_splitting_option block ref kmax k0 else 4294967295) ≤
            assess_se_option uncomp_len block) ∨
        (m_select_code_option block ref kmax k0 id_len uncomp_len = CodeOption.se ∧
          assess_se_option uncomp_len block ≤
            (if 1 < id_len then assess_splitting_option block ref kmax k0
              else 4294967295)))) ∧
    (uncomp_len ≤
        (if 1 < id_len then assess_splitting_option block ref kmax k0 else 4294967295) →
      ((m_select_code_option block ref kmax k0 id_len uncomp_len = CodeOption.uncomp ∧
          uncomp_len ≤ assess_se_option uncomp_len block) ∨
        (m_select_code_option block ref kmax k0 id_len uncomp_len = CodeOption.se ∧
          assess_se_option uncomp_len block ≤ uncomp_len))) := by
  unfold m_select_code_option
  dsimp only
  constructor
  · intro h1
    rw [if_pos h1]
    by_cases h2 : (if 1 < id_len then assess_splitting_option block ref kmax k0
        else 4294967295) < assess_se_option uncomp_len block
    · rw [if_pos h2]
      exact Or.inl ⟨rfl, by omega⟩
    · rw [if_neg h2]
      exact Or.inr ⟨rfl, by omega⟩
  · intro h1
    rw [if_neg (by omega)]
    by_cases h2 : uncomp_len ≤ assess_se_option uncomp_len block
    · rw [if_pos h2]
      exact Or.inl ⟨rfl, h2⟩
    · rw [if_neg h2]
      exact Or.inr ⟨rfl, by omega⟩

theorem C5_witness :
    (m_select_code_option [3, 4, 1, 0] false 5 0 1 56 = CodeOption.uncomp ∧
      56 ≤ assess_se_option 56 [3, 4, 1, 0]) ∨
    (m_select_code_option [3, 4, 1, 0] false 5 0 1 56 = CodeOption.se ∧
      assess_se_option 56 [3, 4, 1, 0] ≤ 56) :=
  (C5_select_code_option [3, 4, 1, 0] false 5 0 1 56).2 (by decide)

/-- C7: for an all-zero block the accumulated run is emitted (transition to
the zero-run encoder) exactly when `blocks_avail = 0` or
`(rsi − blocks_avail) % 64 = 0`; in that ending branch `zero_blocks` is
replaced by `ROS` exactly when the incremented count exceeds 4; a run
reaching exactly 64 blocks at a 64-block boundary is emitted with
`zero_blocks = ROS`; a run ended early by a non-zero block transitions to
the zero-run encoder with `zero_blocks` unchanged — never replaced by
`ROS`.  `blocks_avail ≤ rsi` and `zero_blocks ≤ 4096` are the stream
invariants (they make the `uint32_t` subtraction and the sentinel model
faithful). -/
theorem C7_check_zero_block (rsi blocks_avail : Nat) (ref : Bool) (block : List Nat)
    (st : ZeroState) (hba : blocks_avail ≤ rsi) (hzb : st.zero_blocks ≤ 4096) :
    ((∀ b ∈ block.drop (if ref then 1 else 0), b = 0) →
      ((m_check_zero_block rsi blocks_avail ref block st).2 = Mode.encode_zero ↔
        (blocks_avail = 0 ∨ (rsi - blocks_avail) % 64 = 0))) ∧
    ((∀ b ∈ block.drop (if ref then 1 else 0), b = 0) →
      (blocks_avail = 0 ∨ (rsi - blocks_avail) % 64 = 0) →
      ((m_check_zero_block rsi blocks_avail ref block st).1.zero_blocks = ROS ↔
        4 < st.zero_blocks + 1)) ∧
    ((∀ b ∈ block.drop (if ref then 1 else 0), b = 0) →
      (rsi - blocks_avail) % 64 = 0 → st.zero_blocks + 1 = 64 →
      (m_check_zero_block rsi blocks_avail ref block st).2 = Mode.encode_zero ∧
      (m_check_zero_block rsi blocks_avail ref block st).1.zero_blocks = ROS) ∧
    (¬ (∀ b ∈ block.drop (if ref then 1 else 0), b = 0) → st.zero_blocks ≠ 0 →
      (m_check_zero_block rsi blocks_avail ref block st).2 = Mode.encode_zero ∧
      (m_check_zero_block rsi blocks_avail ref block st).1.zero_blocks =
        st.zero_blocks ∧
      (m_check_zero_block rsi blocks_avail ref block st).1.zero_blocks ≠ ROS) := by
  by_cases hz : ∀ b ∈ block.drop (if ref then 1 else 0), b = 0
  · have hany : (block.drop (if ref then 1 else 0)).any (fun b => b != 0) = false := by
      rw [List.any_eq_false]
      intro b hb
      simp [hz b hb]
    unfold m_check_zero_block
    rw [hany]
    dsimp only
    rw [if_neg (by simp : ¬ (false = true))]
    by_cases hend : blocks_avail = 0 ∨ (rsi - blocks_avail) % 64 = 0
    · rw [if_pos hend]
      by_cases h4 : 4 < st.zero_blocks + 1
      · rw [if_pos h4]
        exact ⟨fun _ => ⟨fun _ => hend, fun _ => rfl⟩,
          fun _ _ => ⟨fun _ => h4, fun _ => rfl⟩,
          fun _ _ _ => ⟨rfl, rfl⟩,
          fun h _ => absurd hz h⟩
      · rw [if_neg h4]
        refine ⟨fun _ => ⟨fun _ => hend, fun _ => rfl⟩,
          fun _ _ => ⟨fun hros => ?_, fun h => absurd h h4⟩,
          fun _ _ h64 => absurd (by omega : 4 < st.zero_blocks + 1) h4,
          fun h _ => absurd hz h⟩
        have : st.zero_blocks + 1 = ROS := hros
        unfold ROS at this
        omega
    · rw [if_neg hend]
      exact ⟨fun _ => ⟨fun hmode => absurd hmode (by simp), fun h => absurd h hend⟩,
        fun _ h => absurd h hend, fun _ h64 _ => absurd (Or.inr h64) hend,
        fun h _ => absurd hz h⟩
  · have hany : (block.drop (if ref then 1 else 0)).any (fun b => b != 0) = true := by
      rw [List.any_eq_true]
      push_neg at hz
      obtain ⟨b, hb, hbnz⟩ := hz
      exact ⟨b, hb, by simpa using hbnz⟩
    unfold m_check_zero_block
    rw [hany]
    dsimp only
    rw [if_pos rfl]
    refine ⟨fun h => absurd h hz, fun h => absurd h hz, fun h => absurd h hz,
      fun _ hnz => ?_⟩
    rw [if_pos hnz]
    refine ⟨rfl, rfl, ?_⟩
    show st.zero_blocks ≠ ROS
    unfold ROS
    omega

theorem C7_witness :
    (m_check_zero_block 128 64 false [0, 0, 0, 0, 0, 0, 0, 0]
        ⟨63, false, 0, false⟩).2 = Mode.encode_zero ∧
    (m_check_zero_block 128 64 false [0, 0, 0, 0, 0, 0, 0, 0]
        ⟨63, false, 0, false⟩).1.zero_blocks = ROS :=
  (C7_check_zero_block 128 64 false [0, 0, 0, 0, 0, 0, 0, 0]
    ⟨63, false, 0, false⟩ (by decide) (by decide)).2.2.1 (by decide) (by decide)
    (by decide)

/-- C8: the zero-run encoder emits the identifier `0` in `id_len + 1` bits,
then the saved reference sample in `bits_per_sample` bits exactly when
`zero_ref` is set, then a fundamental sequence of length 4 when
`zero_blocks` is the `ROS` sentinel, of length `zero_blocks` when
`5 ≤ zero_blocks` (and it is not `ROS`), and of length `zero_blocks − 1`
when `zero_blocks ≤ 4`; afterwards `zero_blocks` is 0.  Stated through the
bit-stream length and value of the emitter state. -/
theorem C8_encode_zero (st : EmitState) (id_len bps : Nat) (zero_ref : Bool)
    (sample zero_blocks : Nat) (hg : goodEmit st) (hs : sample < 2 ^ bps)
    (hbps : 1 ≤ bps) :
    streamLen (m_encode_zero st id_len bps zero_ref sample zero_blocks).1 =
      streamLen st + (id_len + 1) + (if zero_ref then bps else 0) +
        ((if zero_blocks = ROS then 4 else if 5 ≤ zero_blocks then zero_blocks
          else zero_blocks - 1) + 1) ∧
    streamVal (m_encode_zero st id_len bps zero_ref sample zero_blocks).1 =
      ((streamVal st * 2 ^ (id_len + 1) + 0) * 2 ^ (if zero_ref then bps else 0) +
        (if zero_ref then sample else 0)) *
        2 ^ ((if zero_blocks = ROS then 4 else if 5 ≤ zero_blocks then zero_blocks
          else zero_blocks - 1) + 1) + 1 ∧
    (m_encode_zero st id_len bps zero_ref sample zero_blocks).2 = 0 ∧
    goodEmit (m_encode_zero st id_len bps zero_ref sample zero_blocks).1 := by
  obtain ⟨g1, b1, l1, v1⟩ := emit_spec st 0 (id_len + 1) hg (twoPowPos _) (by omega)
  unfold m_encode_zero
  dsimp only
  cases zero_ref with
  | true =>
    rw [if_pos (rfl : true = true), if_pos (rfl : true = true),
      if_pos (rfl : true = true)]
    obtain ⟨g2, b2, l2, v2⟩ :=
      emit_spec (emit st 0 (id_len + 1)) sample bps g1 hs hbps
    by_cases hros : zero_blocks = ROS
    · rw [if_pos hros, if_pos hros]
      obtain ⟨g3, b3, l3, v3⟩ :=
        emitfs_spec (emit (emit st 0 (id_len + 1)) sample bps) 4 g2
      refine ⟨?_, ?_, rfl, g3⟩
      · rw [l3, l2, l1]
      · rw [v3, v2, v1]
    · rw [if_neg hros, if_neg hros]
      by_cases h5 : 5 ≤ zero_blocks
      · rw [if_pos h5, if_pos h5]
        obtain ⟨g3, b3, l3, v3⟩ :=
          emitfs_spec (emit (emit st 0 (id_len + 1)) sample bps) zero_blocks g2
        refine ⟨?_, ?_, rfl, g3⟩
        · rw [l3, l2, l1]
        · rw [v3, v2, v1]
      · rw [if_neg h5, if_neg h5]
        obtain ⟨g3, b3, l3, v3⟩ :=
          emitfs_spec (emit (emit st 0 (id_len + 1)) sample bps) (zero_blocks - 1) g2
        refine ⟨?_, ?_, rfl, g3⟩
        · rw [l3, l2, l1]
        · rw [v3, v2, v1]
  | false =>
    rw [if_neg (by simp : ¬ (false = true)), if_neg (by simp : ¬ (false = true)),
      if_neg (by simp : ¬ (false = true))]
    by_cases hros : zero_blocks = ROS
    · rw [if_pos hros, if_pos hros]
      obtain ⟨g3, b3, l3, v3⟩ := emitfs_spec (emit st 0 (id_len + 1)) 4 g1
      refine ⟨?_, ?_, rfl, g3⟩
      · rw [l3, l1]
      · rw [v3, v1]
        ring
    · rw [if_neg hros, if_neg hros]
      by_cases h5 : 5 ≤ zero_blocks
      · rw [if_pos h5, if_pos h5]
        obtain ⟨g3, b3, l3, v3⟩ := emitfs_spec (emit st 0 (id_len + 1)) zero_blocks g1
        refine ⟨?_, ?_, rfl, g3⟩
        · rw [l3, l1]
          omega
        · rw [v3, v1]
          ring
      · rw [if_neg h5, if_neg h5]
        obtain ⟨g3, b3, l3, v3⟩ :=
          emitfs_spec (emit st 0 (id_len + 1)) (zero_blocks - 1) g1
        refine ⟨?_, ?_, rfl, g3⟩
        · rw [l3, l1]
          omega
        · rw [v3, v1]
          ring

theorem C8_witness :
    streamLen (m_encode_zero ⟨[], 0, 8⟩ 3 8 true 10 ROS).1 =
      streamLen ⟨[], 0, 8⟩ + (3 + 1) + (if true then 8 else 0) +
        ((if ROS = ROS then 4 else if 5 ≤ ROS then ROS else ROS - 1) + 1) ∧
    streamVal (m_encode_zero ⟨[], 0, 8⟩ 3 8 true 10 ROS).1 =
      ((streamVal ⟨[], 0, 8⟩ * 2 ^ (3 + 1) + 0) * 2 ^ (if true then 8 else 0) +
        (if true then 10 else 0)) *
        2 ^ ((if ROS = ROS then 4 else if 5 ≤ ROS then ROS else ROS - 1) + 1) + 1 ∧
    (m_encode_zero ⟨[], 0, 8⟩ 3 8 true 10 ROS).2 = 0 ∧
    goodEmit (m_encode_zero ⟨[], 0, 8⟩ 3 8 true 10 ROS).1 :=
  C8_encode_zero ⟨[], 0, 8⟩ 3 8 true 10 ROS (by decide) (by decide) (by decide)

/-- C2 counterexample: with `rsi = 0` (invalid per the claim, which requires
`rsi ∈ [1,4096]`) the code accepts the configuration — encode.c:792 only
rejects `rsi > 4096` — so `aec_encode_init` returns AEC_OK on a
configuration the claim calls invalid. -/
theorem C2_counterexample :
    (aec_encode_init 8 8 0 ⟨false, false, false, false, false⟩).1 = .ok ∧
    claimInvalid 8 8 0 ⟨false, false, false, false, false⟩ := by
  constructor
  · rfl
  · unfold claimInvalid
    decide

/-- C2 (amended): `aec_encode_init` returns AEC_CONF_ERROR exactly when
`bits_per_sample` is 0 or above 32, or `block_size` is outside {8,16,32,64},
or `rsi > 4096` (rsi = 0 is accepted), or the RESTRICTED flag is set with
`4 < bits_per_sample ≤ 8` (RESTRICTED with `bits_per_sample > 8` is
accepted); in every other case it returns AEC_OK (allocations modelled as
succeeding). -/
theorem C2_init_validation (bps bs rsi : Nat) (flags : AecFlags) :
    ((aec_encode_init bps bs rsi flags).1 = .confError ↔
      (bps = 0 ∨ 32 < bps ∨ (bs ≠ 8 ∧ bs ≠ 16 ∧ bs ≠ 32 ∧ bs ≠ 64) ∨ 4096 < rsi ∨
        (flags.restricted = true ∧ 4 < bps ∧ bps ≤ 8))) ∧
    ((aec_encode_init bps bs rsi flags).1 = .ok ↔
      ¬ (bps = 0 ∨ 32 < bps ∨ (bs ≠ 8 ∧ bs ≠ 16 ∧ bs ≠ 32 ∧ bs ≠ 64) ∨ 4096 < rsi ∨
        (flags.restricted = true ∧ 4 < bps ∧ bps ≤ 8))) := by
  unfold aec_encode_init
  split_ifs with h1 h2 h3 h4 h5 h6 h7 <;> simp_all <;> omega

/-- C9: `aec_encode_end` returns AEC_STREAM_ERROR if and only if the last
`aec_encode` call requested AEC_FLUSH and the encoder never reached its
flushed state; in every other case it returns AEC_OK, and on every path
the stream's resources are freed (`cleanup` runs). -/
theorem C9_encode_end (fl : FlushMode) (flushed : Nat) :
    ((aec_encode_end fl flushed).1 = .streamError ↔
      fl = .flush ∧ flushed = 0) ∧
    ((aec_encode_end fl flushed).1 = .streamError ∨
      (aec_encode_end fl flushed).1 = .ok) ∧
    (aec_encode_end fl flushed).2 = true := by
  unfold aec_encode_end
  split_ifs with h <;> simp_all
